import Mathlib

/-!
Verification of the LendWid ledger engine (`src/server.py`).

The Python transforms operate on Firebase RTDB JSON documents.  We shallowly
embed the documents as Lean structures whose fields are `Option`-valued
(Firebase has no `null` values: writing `null` deletes the key, so a missing
key and a `None` value coincide at the store level and are both modelled by
`none`).  Python dicts are modelled as association lists in insertion order,
which matches dict iteration order; machine integers are Python bignums, so
plain `Int` is exact.
-/

namespace LendWid

/-! ### Association lists modelling Python dicts -/

/-- `d.get(k)` / `d[k]`: first (unique) binding of `k`. -/
def lookupKey (k : String) : List (String × α) → Option α
  | [] => none
  | (k', v) :: t => if k' = k then some v else lookupKey k t

/-- `k in d`. -/
def containsKey (k : String) (l : List (String × α)) : Bool :=
  (lookupKey k l).isSome

/-- `d[k] = v`: replace in place if present (dicts keep the key's insertion
position), else append at the end. -/
def upsert (k : String) (v : α) : List (String × α) → List (String × α)
  | [] => [(k, v)]
  | (k', v') :: t => if k' = k then (k, v) :: t else (k', v') :: upsert k v t

/-- `del d[k]` (callers guard for presence). -/
def eraseKey (k : String) : List (String × α) → List (String × α)
  | [] => []
  | (k', v') :: t => if k' = k then t else (k', v') :: eraseKey k t

/-- `d.keys()` in insertion order. -/
def keysOf (l : List (String × α)) : List String :=
  l.map Prod.fst

theorem lookupKey_eq_none {k : String} {l : List (String × α)} :
    lookupKey k l = none ↔ k ∉ keysOf l := by
  induction l with
  | nil => simp [lookupKey, keysOf]
  | cons p t ih =>
    obtain ⟨k', v⟩ := p
    by_cases h : k' = k
    · subst h; simp [lookupKey, keysOf]
    · simp only [lookupKey, if_neg h, keysOf, List.map_cons, List.mem_cons, ih]
      constructor
      · intro hn hmem
        rcases hmem with hmem | hmem
        · exact h hmem.symm
        · exact hn hmem
      · intro hn hmem
        exact hn (Or.inr hmem)

theorem lookupKey_isSome_iff {k : String} {l : List (String × α)} :
    (lookupKey k l).isSome = true ↔ k ∈ keysOf l := by
  rw [Option.isSome_iff_ne_none]
  constructor
  · intro h; by_contra hk; exact h (lookupKey_eq_none.mpr hk)
  · intro h hn; exact (lookupKey_eq_none.mp hn) h

theorem containsKey_iff {k : String} {l : List (String × α)} :
    containsKey k l = true ↔ k ∈ keysOf l := by
  unfold containsKey; exact lookupKey_isSome_iff

theorem keysOf_cons {p : String × α} {t : List (String × α)} :
    keysOf (p :: t) = p.1 :: keysOf t := rfl

theorem not_mem_keysOf_cons {k : String} {p : String × α} {t : List (String × α)}
    (h : k ∉ keysOf (p :: t)) : p.1 ≠ k ∧ k ∉ keysOf t := by
  rw [keysOf_cons] at h
  simp only [List.mem_cons] at h
  push_neg at h
  exact ⟨fun e => h.1 e.symm, h.2⟩

theorem lookupKey_append_left {k : String} {l₁ l₂ : List (String × α)}
    (h : k ∉ keysOf l₁) : lookupKey k (l₁ ++ l₂) = lookupKey k l₂ := by
  induction l₁ with
  | nil => rfl
  | cons p t ih =>
    obtain ⟨k', v⟩ := p
    obtain ⟨h1, h2⟩ := not_mem_keysOf_cons h
    show (if k' = k then some v else lookupKey k (t ++ l₂)) = lookupKey k l₂
    rw [if_neg h1, ih h2]

theorem lookupKey_append_self {k : String} {v : α} {l : List (String × α)}
    (h : k ∉ keysOf l) : lookupKey k (l ++ [(k, v)]) = some v := by
  rw [lookupKey_append_left h]; simp [lookupKey]

theorem upsert_eq_append {k : String} {v : α} {l : List (String × α)}
    (h : k ∉ keysOf l) : upsert k v l = l ++ [(k, v)] := by
  induction l with
  | nil => rfl
  | cons p t ih =>
    obtain ⟨k', v'⟩ := p
    obtain ⟨h1, h2⟩ := not_mem_keysOf_cons h
    show (if k' = k then (k, v) :: t else (k', v') :: upsert k v t) = (k', v') :: (t ++ [(k, v)])
    rw [if_neg h1, ih h2]

theorem eraseKey_append_self {k : String} {v : α} {l : List (String × α)}
    (h : k ∉ keysOf l) : eraseKey k (l ++ [(k, v)]) = l := by
  induction l with
  | nil => simp [eraseKey]
  | cons p t ih =>
    obtain ⟨k', v'⟩ := p
    obtain ⟨h1, h2⟩ := not_mem_keysOf_cons h
    show (if k' = k then t ++ [(k, v)] else (k', v') :: eraseKey k (t ++ [(k, v)])) = (k', v') :: t
    rw [if_neg h1, ih h2]

theorem upsert_self {k : String} {v : α} {l : List (String × α)}
    (h : lookupKey k l = some v) : upsert k v l = l := by
  induction l with
  | nil => simp [lookupKey] at h
  | cons p t ih =>
    obtain ⟨k', v'⟩ := p
    simp only [lookupKey] at h
    by_cases hk : k' = k
    · simp only [if_pos hk] at h
      simp [upsert, hk, ← Option.some_inj.mp h]
    · simp only [if_neg hk] at h
      simp [upsert, hk, ih h]

theorem upsert_upsert {k : String} {v w : α} {l : List (String × α)} :
    upsert k v (upsert k w l) = upsert k v l := by
  induction l with
  | nil => simp [upsert]
  | cons p t ih =>
    obtain ⟨k', v'⟩ := p
    by_cases hk : k' = k <;> simp [upsert, hk, ih]

theorem lookupKey_upsert_self {k : String} {v : α} {l : List (String × α)} :
    lookupKey k (upsert k v l) = some v := by
  induction l with
  | nil => simp [upsert, lookupKey]
  | cons p t ih =>
    obtain ⟨k', v'⟩ := p
    by_cases hk : k' = k <;> simp [upsert, lookupKey, hk, ih]

theorem lookupKey_upsert_ne {k k' : String} {v : α} {l : List (String × α)}
    (h : k' ≠ k) : lookupKey k (upsert k' v l) = lookupKey k l := by
  induction l with
  | nil => simp [upsert, lookupKey, h]
  | cons p t ih =>
    obtain ⟨k'', v'⟩ := p
    show lookupKey k (if k'' = k' then (k', v) :: t else (k'', v') :: upsert k' v t)
        = (if k'' = k then some v' else lookupKey k t)
    by_cases hk : k'' = k'
    · rw [if_pos hk, if_neg (fun e => h (hk.symm.trans e))]
      show (if k' = k then some v else lookupKey k t) = lookupKey k t
      rw [if_neg h]
    · rw [if_neg hk]
      show (if k'' = k then some v' else lookupKey k (upsert k' v t))
          = (if k'' = k then some v' else lookupKey k t)
      by_cases hk2 : k'' = k
      · rw [if_pos hk2, if_pos hk2]
      · rw [if_neg hk2, if_neg hk2, ih]

theorem keysOf_upsert_mem {k : String} {v : α} {l : List (String × α)}
    (h : k ∈ keysOf l) : keysOf (upsert k v l) = keysOf l := by
  induction l with
  | nil => simp [keysOf] at h
  | cons p t ih =>
    obtain ⟨k', v'⟩ := p
    show keysOf (if k' = k then (k, v) :: t else (k', v') :: upsert k v t) = keysOf ((k', v') :: t)
    by_cases hk : k' = k
    · subst hk; rw [if_pos rfl]; rfl
    · rw [if_neg hk, keysOf_cons, keysOf_cons]
      rw [keysOf_cons] at h
      rcases List.mem_cons.mp h with h | h
      · exact absurd h.symm hk
      · rw [ih h]

/-! ### Decimal formatting and parsing

Python f-strings format ints via their decimal representation, which agrees
with Lean's `toString`.  Python `int(s)` is modelled by `pyIntParse`, exact on
the optional-minus-then-digits strings this program formats and parses. -/

/-- Clean recursive decimal digit list of a natural number. -/
def natDigs (n : Nat) : List Char :=
  if h : n < 10 then [Nat.digitChar n]
  else natDigs (n / 10) ++ [Nat.digitChar (n % 10)]
  decreasing_by exact Nat.div_lt_self (by omega) (by omega)

theorem toDigitsCore_eq_natDigs (fuel : Nat) :
    ∀ n ds, n < fuel → Nat.toDigitsCore 10 fuel n ds = natDigs n ++ ds := by
  induction fuel with
  | zero => intro n ds h; omega
  | succ fuel ih =>
    intro n ds h
    show (if n / 10 = 0 then Nat.digitChar (n % 10) :: ds
          else Nat.toDigitsCore 10 fuel (n / 10) (Nat.digitChar (n % 10) :: ds))
        = natDigs n ++ ds
    by_cases h0 : n / 10 = 0
    · have hn : n < 10 := by omega
      rw [if_pos h0, natDigs, dif_pos hn, Nat.mod_eq_of_lt hn]
      rfl
    · have hn : ¬ n < 10 := by
        intro hlt
        exact h0 (Nat.div_eq_of_lt hlt)
      rw [if_neg h0, ih (n / 10) _ (by
        have : n / 10 < n := Nat.div_lt_self (by omega) (by omega)
        omega)]
      conv_rhs => rw [natDigs]
      rw [dif_neg hn, List.append_assoc]
      rfl

theorem toString_nat_data (n : Nat) : (toString n).data = natDigs n := by
  show (Nat.repr n).data = natDigs n
  unfold Nat.repr Nat.toDigits
  rw [toDigitsCore_eq_natDigs (n + 1) n [] (Nat.lt_succ_self n)]
  simp [List.asString]

theorem digitChar_isDigit {n : Nat} (h : n < 10) : (Nat.digitChar n).isDigit = true := by
  interval_cases n <;> decide

theorem digitChar_toNat {n : Nat} (h : n < 10) : (Nat.digitChar n).toNat = n + 48 := by
  interval_cases n <;> decide

theorem natDigs_all_digit (n : Nat) : ∀ c ∈ natDigs n, c.isDigit = true := by
  induction n using Nat.strong_induction_on with
  | _ n ih =>
    intro c hc
    rw [natDigs] at hc
    by_cases h : n < 10
    · rw [dif_pos h] at hc
      simp only [List.mem_singleton] at hc
      exact hc ▸ digitChar_isDigit h
    · rw [dif_neg h] at hc
      rcases List.mem_append.mp hc with hc | hc
      · exact ih (n / 10) (Nat.div_lt_self (by omega) (by omega)) c hc
      · simp only [List.mem_singleton] at hc
        exact hc ▸ digitChar_isDigit (Nat.mod_lt n (by omega))

theorem natDigs_ne_nil (n : Nat) : natDigs n ≠ [] := by
  rw [natDigs]
  by_cases h : n < 10
  · rw [dif_pos h]; simp
  · rw [dif_neg h]; simp

/-- Value of a decimal digit list, as Python's digit fold computes it. -/
def digitsVal (l : List Char) : Nat :=
  l.foldl (fun a c => 10 * a + (c.toNat - 48)) 0

theorem digitsVal_append_singleton (l : List Char) (c : Char) :
    digitsVal (l ++ [c]) = 10 * digitsVal l + (c.toNat - 48) := by
  unfold digitsVal
  rw [List.foldl_append]
  rfl

theorem digitsVal_natDigs (n : Nat) : digitsVal (natDigs n) = n := by
  induction n using Nat.strong_induction_on with
  | _ n ih =>
    rw [natDigs]
    by_cases h : n < 10
    · rw [dif_pos h]
      show 10 * 0 + ((Nat.digitChar n).toNat - 48) = n
      rw [digitChar_toNat h]
      omega
    · rw [dif_neg h, digitsVal_append_singleton,
        ih (n / 10) (Nat.div_lt_self (by omega) (by omega)),
        digitChar_toNat (Nat.mod_lt n (by omega))]
      omega

/-- Python `int` applied to a plain digit string (no sign). -/
def pyNatParse (l : List Char) : Option Nat :=
  if l ≠ [] ∧ l.all Char.isDigit then some (digitsVal l) else none

/-- Models Python `int(s)`: an optional leading minus followed by decimal
digits (the only shapes this program ever formats or stores). -/
def pyIntParse (s : String) : Option Int :=
  match s.data with
  | [] => none
  | c :: rest =>
    if c = '-' then (pyNatParse rest).map (fun n => -(n : Int))
    else (pyNatParse (c :: rest)).map (fun n => (n : Int))

theorem pyNatParse_natDigs (n : Nat) : pyNatParse (natDigs n) = some n := by
  unfold pyNatParse
  rw [if_pos ⟨natDigs_ne_nil n, List.all_eq_true.mpr (natDigs_all_digit n)⟩,
    digitsVal_natDigs]

theorem pyIntParse_toString_nat (n : Nat) : pyIntParse (toString n) = some (n : Int) := by
  unfold pyIntParse
  rw [toString_nat_data]
  cases hd : natDigs n with
  | nil => exact absurd hd (natDigs_ne_nil n)
  | cons c cs =>
    have hdig : c.isDigit = true := natDigs_all_digit n c (hd ▸ List.mem_cons_self c cs)
    have hne : c ≠ '-' := by
      intro e
      rw [e] at hdig
      exact absurd hdig (by decide)
    simp only [if_neg hne, ← hd, pyNatParse_natDigs, Option.map_some]
    rfl

theorem toString_nat_injective {a b : Nat} (h : toString a = toString b) : a = b := by
  have := pyIntParse_toString_nat a
  rw [h, pyIntParse_toString_nat b] at this
  exact Int.ofNat_inj.mp (Option.some_inj.mp this).symm

theorem toString_int_ofNat (n : Nat) : toString (Int.ofNat n) = toString n := rfl

/-! ### Python string operations -/

/-- Replace every non-overlapping occurrence of the pattern `p :: ps`,
scanning left to right, as Python `str.replace` does.  The fuel argument (the
scanned list's length at the call site) only makes the recursion structural;
it never runs out, since a step consumes at least one character. -/
def replaceList (p : Char) (ps rep : List Char) : Nat → List Char → List Char
  | _, [] => []
  | 0, l => l
  | fuel + 1, c :: rest =>
    if (p :: ps).isPrefixOf (c :: rest)
    then rep ++ replaceList p ps rep fuel (List.drop ps.length rest)
    else c :: replaceList p ps rep fuel rest

/-- Python `s.replace(pat, rep)` (all occurrences).  The program only calls it
with the non-empty pattern `"week"`; an empty pattern returns `s` here. -/
def pyReplace (s pat rep : String) : String :=
  match pat.data with
  | [] => s
  | p :: ps => ⟨replaceList p ps rep.data s.data.length s.data⟩

/-- Python `s.startswith(pre)`. -/
def pyStartsWith (s pre : String) : Bool :=
  pre.data.isPrefixOf s.data

/-- Python `s[n:]`. -/
def pyDrop (s : String) (n : Nat) : String :=
  ⟨s.data.drop n⟩

/-- Python `s.lower()` (ASCII, which is all this program compares). -/
def pyLower (s : String) : String :=
  ⟨s.data.map Char.toLower⟩

theorem replaceList_of_head_not_mem {p : Char} {ps rep : List Char} :
    ∀ (l : List Char) (fuel : Nat), l.length ≤ fuel → p ∉ l →
      replaceList p ps rep fuel l = l := by
  intro l
  induction l with
  | nil => intro fuel _ _; cases fuel <;> simp [replaceList]
  | cons c rest ih =>
    intro fuel hf h
    cases fuel with
    | zero => simp at hf
    | succ fuel =>
      have hcp : (p == c) = false := by
        simp only [beq_eq_false_iff_ne]
        intro e
        exact h (e ▸ List.mem_cons_self c rest)
      rw [replaceList]
      have hpre : (p :: ps).isPrefixOf (c :: rest) = false := by
        show (p == c && ps.isPrefixOf rest) = false
        rw [hcp, Bool.false_and]
      rw [hpre]
      show c :: replaceList p ps rep fuel rest = c :: rest
      rw [ih fuel (by simpa using hf) (fun hm => h (List.mem_cons_of_mem c hm))]

theorem string_data_append (a b : String) : (a ++ b).data = a.data ++ b.data := by
  cases a; cases b; rfl

theorem string_mk_data (s : String) : String.mk s.data = s := by
  cases s; rfl

/-- `("week" + digits).replace("week", "") = digits` when the suffix contains
no `'w'` (true of all decimal digit strings). -/
theorem pyReplace_week (s : String) (h : 'w' ∉ s.data) :
    pyReplace ("week" ++ s) "week" "" = s := by
  unfold pyReplace
  show String.mk (replaceList 'w' ['e', 'e', 'k'] []
    (("week" ++ s).data.length) (("week" ++ s).data)) = s
  rw [string_data_append]
  show String.mk (replaceList 'w' ['e', 'e', 'k'] []
    (('w' :: 'e' :: 'e' :: 'k' :: s.data).length) ('w' :: 'e' :: 'e' :: 'k' :: s.data)) = s
  have hlen : ('w' :: 'e' :: 'e' :: 'k' :: s.data).length = (s.data.length + 3) + 1 := by
    simp only [List.length_cons]
  rw [hlen, replaceList]
  have hpre : (('w' : Char) :: ['e', 'e', 'k']).isPrefixOf
      ('w' :: 'e' :: 'e' :: 'k' :: s.data) = true := by
    show (('w' : Char) == 'w' &&
      (['e', 'e', 'k'] : List Char).isPrefixOf ('e' :: 'e' :: 'k' :: s.data)) = true
    simp [List.isPrefixOf]
  rw [hpre]
  show String.mk ([] ++ replaceList 'w' ['e', 'e', 'k'] []
    (s.data.length + 3) (List.drop 3 ('e' :: 'e' :: 'k' :: s.data))) = s
  rw [List.nil_append]
  show String.mk (replaceList 'w' ['e', 'e', 'k'] [] (s.data.length + 3) s.data) = s
  rw [replaceList_of_head_not_mem s.data (s.data.length + 3) (by omega) h, string_mk_data]

theorem pyStartsWith_append (pre s : String) : pyStartsWith (pre ++ s) pre = true := by
  unfold pyStartsWith
  rw [string_data_append]
  exact List.isPrefixOf_iff_prefix.mpr (List.prefix_append pre.data s.data)

theorem pyDrop_one_append (s : String) (c : Char) :
    pyDrop (⟨[c]⟩ ++ s) 1 = s := by
  unfold pyDrop
  rw [string_data_append]
  show String.mk (List.drop 1 (c :: s.data)) = s
  rw [List.drop_one, List.tail_cons, string_mk_data]

theorem natDigs_no_w (n : Nat) : 'w' ∉ natDigs n := by
  intro hm
  have := natDigs_all_digit n 'w' hm
  exact absurd this (by decide)

theorem natDigs_no_dash (n : Nat) : '-' ∉ natDigs n := by
  intro hm
  have := natDigs_all_digit n '-' hm
  exact absurd this (by decide)

/-! ### Max helpers (`max(xs)` and `sorted(xs)[-1]`) -/

/-- Python `max(xs) if xs else 0` for an int list. -/
def pyMaxD0 (l : List Int) : Int :=
  match l with
  | [] => 0
  | x :: xs => xs.foldl max x

theorem foldl_max_le {y : Int} (l : List Int) (acc : Int)
    (ha : acc ≤ y) (h : ∀ x ∈ l, x ≤ y) : l.foldl max acc ≤ y := by
  induction l generalizing acc with
  | nil => exact ha
  | cons x xs ih =>
    exact ih (max acc x) (max_le ha (h x (List.mem_cons_self x xs)))
      (fun z hz => h z (List.mem_cons_of_mem x hz))

theorem pyMaxD0_append_top {l : List Int} {y : Int}
    (h : ∀ x ∈ l, x ≤ y) : pyMaxD0 (l ++ [y]) = y := by
  cases l with
  | nil => rfl
  | cons x xs =>
    show (xs ++ [y]).foldl max x = y
    rw [List.foldl_append]
    show max ((xs).foldl max x) y = y
    exact max_eq_right (foldl_max_le xs x (h x (List.mem_cons_self x xs))
      (fun z hz => h z (List.mem_cons_of_mem x hz)))

/-- Python `sorted(keys)[-1]` for a non-empty list: the maximum. -/
def lastSorted (l : List String) : String :=
  match l with
  | [] => ""
  | x :: xs => xs.foldl max x

theorem foldl_max_le_str {y : String} (l : List String) (acc : String)
    (ha : acc ≤ y) (h : ∀ x ∈ l, x ≤ y) : l.foldl max acc ≤ y := by
  induction l generalizing acc with
  | nil => exact ha
  | cons x xs ih =>
    exact ih (max acc x) (max_le ha (h x (List.mem_cons_self x xs)))
      (fun z hz => h z (List.mem_cons_of_mem x hz))

theorem lastSorted_append_top {l : List String} {y : String}
    (h : ∀ x ∈ l, x < y) : lastSorted (l ++ [y]) = y := by
  cases l with
  | nil => rfl
  | cons x xs =>
    show (xs ++ [y]).foldl max x = y
    rw [List.foldl_append]
    show max ((xs).foldl max x) y = y
    exact max_eq_right (foldl_max_le_str xs x (le_of_lt (h x (List.mem_cons_self x xs)))
      (fun z hz => le_of_lt (h z (List.mem_cons_of_mem x hz))))

/-! ### Data model

JSON objects stored under `Users/<user>`.  A missing key and a JSON `null`
coincide (Firebase RTDB deletes keys written as `null`), both are `none`.
The structures list exactly the keys the program reads or writes. -/

/-- One `collectionData` entry: `{Amount, date, entryStatus}`. -/
structure Entry where
  Amount : Option Int
  date : Option String
  entryStatus : Option String
deriving DecidableEq

/-- The per-client stat object stored under the key `f"{client_id}Stat"`. -/
structure ClientStat where
  ClientName : Option String
  CollectionDay : Option String
  LendDate : Option String
  Status : Option String
  TotalAmountPaid : Option Int
  WeeksPaid : Option Int
deriving DecidableEq

abbrev CollData := List (String × Entry)

/-- A `ClientData[client_id]` node.  `stat` models the `f"{client_id}Stat"`
key (the id-embedded key convention means each node is addressed with its own
id, so it behaves as a plain field). -/
structure ClientRecord where
  stat : Option ClientStat
  collectionData : Option CollData
deriving DecidableEq

/-- One receipt entry `{action, week}` recorded by the sweep for one client. -/
structure BatchInfo where
  action : Option String
  week : Option Int
deriving DecidableEq

/-- The `AllStats` rollup object. -/
structure AllStats where
  TotalLoans : Option Int
  ActiveLoans : Option Int
  ClosedLoans : Option Int
deriving DecidableEq

abbrev ClientData := List (String × ClientRecord)
abbrev Receipt := List (String × BatchInfo)
abbrev Batches := List (String × Receipt)

/-- The whole per-user ledger document.  `lastBatch` records presence of the
`_lastBatch` key (its value is only ever written as `None`, never read). -/
structure Doc where
  allStats : Option AllStats
  clientData : Option ClientData
  batches : Option Batches
  lastBatch : Bool
deriving DecidableEq

def emptyEntry : Entry := ⟨none, none, none⟩

def emptyClientStat : ClientStat := ⟨none, none, none, none, none, none⟩

def emptyClientRecord : ClientRecord := ⟨none, none⟩

def emptyAllStats : AllStats := ⟨none, none, none⟩

def zeroAllStats : AllStats := ⟨some 0, some 0, some 0⟩

/-- `str(None)` or `str(i)`, for the `f"week{week_no}"` key in the undo. -/
def pyFormatOptInt : Option Int → String
  | some n => toString n
  | none => "None"

/-! ### Transforms from `server.py`

Each Firebase `transaction(tx)` body is a pure function of the current value;
a Python exception inside the body aborts the transaction without writing, so
fallible transforms return `Except`.  The clock injection: `today_date` and
`today_weekday` (strings) stand for the values the code derives from
`datetime.now(IST)`. -/

/-- `ensure_user_structure`. -/
def ensure_user_structure (o : Option Doc) : Doc :=
  match o with
  | none =>
    { allStats := some zeroAllStats, clientData := some [], batches := none, lastBatch := true }
  | some curr =>
    { curr with
      allStats := some (curr.allStats.getD zeroAllStats),
      clientData := some (curr.clientData.getD []),
      lastBatch := true }

/-- `find_today_entry`: first key whose entry's `date` equals today. -/
def find_today_entry (collection_data : CollData) (today_date : String) : Option String :=
  match collection_data with
  | [] => none
  | (k, entry) :: rest =>
    if entry.date = some today_date then some k else find_today_entry rest today_date

/-- The `while f"P{i}" in client_data: i += 1` scan.  The loop stops at the
first free index, which is at most `len + 1` by pigeonhole, so the fuel
`cd.length + 1` never runs out (`findFreeIdx_spec` below). -/
def findFreeIdx (cd : ClientData) : Nat → Nat → Nat
  | i, 0 => i
  | i, fuel + 1 =>
    if containsKey ("P" ++ toString i) cd then findFreeIdx cd (i + 1) fuel else i

/-- `get_next_client_id` (the authoritative in-transaction allocator). -/
def get_next_client_id (client_data : ClientData) : String :=
  "P" ++ toString (findFreeIdx client_data 1 (client_data.length + 1))

/-- `txn_add_new_client`'s transaction body. -/
def txn_add_new_client (lend_date collection_day : String) (o : Option Doc) :
    Except String Doc :=
  match o with
  | none => .error "User node does not exist. Refusing to create root automatically."
  | some curr =>
    match curr.allStats, curr.clientData with
    | some all_stats, some client_data =>
      let new_pid := get_next_client_id client_data
      let new_client : ClientRecord :=
        { stat := some
            { ClientName := some new_pid
              CollectionDay := some collection_day
              LendDate := some lend_date
              Status := some "Active"
              TotalAmountPaid := some 0
              WeeksPaid := some 0 }
          collectionData := some [] }
      let all_stats' : AllStats :=
        { TotalLoans := some (all_stats.TotalLoans.getD 0 + 1)
          ActiveLoans := some (all_stats.ActiveLoans.getD 0 + 1)
          ClosedLoans := some (all_stats.ClosedLoans.getD 0) }
      .ok { curr with
            clientData := some (upsert new_pid new_client client_data)
            allStats := some all_stats' }
    | _, _ => .error "Corrupt user structure"

/-- The week numbers parsed from `collectionData` keys: `startswith("week")`
filter, then `int(k.replace("week", ""))` with `try/except` skip. -/
def weekNumsOf (coll : CollData) : List Int :=
  coll.filterMap fun kv =>
    if pyStartsWith kv.1 "week" then pyIntParse (pyReplace kv.1 "week" "") else none

/-- `ActiveLoans -= 1; ClosedLoans += 1` (client just closed). -/
def closeStats (s : AllStats) : AllStats :=
  { s with
    ActiveLoans := some (s.ActiveLoans.getD 0 - 1)
    ClosedLoans := some (s.ClosedLoans.getD 0 + 1) }

/-- `ActiveLoans += 1; ClosedLoans -= 1` (undo reopening a closed client). -/
def reopenStats (s : AllStats) : AllStats :=
  { s with
    ActiveLoans := some (s.ActiveLoans.getD 0 + 1)
    ClosedLoans := some (s.ClosedLoans.getD 0 - 1) }

/-- `txn_add_entry`'s transaction body.  `if not node` / `if not stat` are
Python falsiness tests, which an empty dict also fails. -/
def txn_add_entry (client_id : String) (amount : Int) (date_str status : String)
    (o : Option Doc) : Except String Doc :=
  match o with
  | none => .error "User not found"
  | some curr =>
    match curr.allStats, curr.clientData with
    | some all_stats, some client_data =>
      match lookupKey client_id client_data with
      | none => .error "Client not found"
      | some node =>
        if node = emptyClientRecord then .error "Client not found"
        else
          match node.stat with
          | none => .error "Client stat missing"
          | some stat =>
            if stat = emptyClientStat then .error "Client stat missing"
            else if stat.Status = some "Closed" then .error "Client already closed"
            else
              let coll := node.collectionData.getD []
              let next_week : Int := pyMaxD0 (weekNumsOf coll) + 1
              if next_week > 20 then .error "Max 20 weeks reached"
              else
                let coll' := upsert ("week" ++ toString next_week)
                  ⟨some amount, some date_str, some status⟩ coll
                let weeks_paid :=
                  if status = "paid" then stat.WeeksPaid.getD 0 + 1 else stat.WeeksPaid.getD 0
                let total_paid :=
                  if status = "paid" then stat.TotalAmountPaid.getD 0 + amount
                  else stat.TotalAmountPaid.getD 0
                let closed := weeks_paid ≥ 20
                let stat1 := { stat with
                  WeeksPaid := some weeks_paid, TotalAmountPaid := some total_paid }
                let stat2 := if closed then { stat1 with Status := some "Closed" } else stat1
                let node' := { node with collectionData := some coll', stat := some stat2 }
                .ok { curr with
                      clientData := some (upsert client_id node' client_data)
                      allStats := some (if closed then closeStats all_stats else all_stats) }
    | _, _ => .error "Corrupt user structure"

/-- The `else` branch of the sweep's per-client body: no entry dated today, so
create next week's entry as `paid`.  Never raises; over-capacity clients are
skipped silently (`continue`).  Returns the updated node, whether the closure
rule fired (the inline `AllStats` mutation, applied by the loop), and the
receipt entry. -/
def sweepCreate (today_date : String) (node : ClientRecord) (stat : ClientStat)
    (coll : CollData) : ClientRecord × Bool × Option BatchInfo :=
  let next_week : Int := pyMaxD0 (weekNumsOf coll) + 1
  if next_week > 20 then (node, false, none)
  else
    let coll' := upsert ("week" ++ toString next_week)
      ⟨some 600, some today_date, some "paid"⟩ coll
    let weeks_paid := stat.WeeksPaid.getD 0 + 1
    let closed := weeks_paid ≥ 20
    let stat1 := { stat with
      WeeksPaid := some weeks_paid
      TotalAmountPaid := some (stat.TotalAmountPaid.getD 0 + 600) }
    let stat2 := if closed then { stat1 with Status := some "Closed" } else stat1
    ({ node with collectionData := some coll', stat := some stat2 }, closed,
      some ⟨some "created", some next_week⟩)

/-- The sweep branch for an existing entry dated today: skip if already paid,
otherwise flip to `paid` and credit a fixed 600.  `int(today_key.replace(...))`
is outside any `try`, so a parse failure raises out of the transaction. -/
def sweepUpdate (today_key : String) (node : ClientRecord) (stat : ClientStat)
    (coll : CollData) : Except String (ClientRecord × Bool × Option BatchInfo) :=
  let entry := (lookupKey today_key coll).getD emptyEntry
  if pyLower (entry.entryStatus.getD "") = "paid" then .ok (node, false, none)
  else
    let coll' := upsert today_key { entry with entryStatus := some "paid" } coll
    let weeks_paid := stat.WeeksPaid.getD 0 + 1
    let closed := weeks_paid ≥ 20
    let stat1 := { stat with
      WeeksPaid := some weeks_paid
      TotalAmountPaid := some (stat.TotalAmountPaid.getD 0 + 600) }
    let stat2 := if closed then { stat1 with Status := some "Closed" } else stat1
    match pyIntParse (pyReplace today_key "week" "") with
    | none => .error "invalid literal for int"
    | some week_no =>
      .ok ({ node with collectionData := some coll', stat := some stat2 }, closed,
        some ⟨some "updated", some week_no⟩)

/-- One iteration of the sweep's `for client_id, node in client_data.items()`
body.  `if today_key:` is a truthiness test, false for `None` and `""`. -/
def sweepClient (today_date today_weekday : String) (node : ClientRecord) :
    Except String (ClientRecord × Bool × Option BatchInfo) :=
  match node.stat with
  | none => .ok (node, false, none)
  | some stat =>
    if stat = emptyClientStat then .ok (node, false, none)
    else if pyLower (stat.Status.getD "") ≠ "active" then .ok (node, false, none)
    else if stat.CollectionDay ≠ some today_weekday then .ok (node, false, none)
    else
      let coll := node.collectionData.getD []
      match find_today_entry coll today_date with
      | some today_key =>
        if today_key = "" then .ok (sweepCreate today_date node stat coll)
        else sweepUpdate today_key node stat coll
      | none => .ok (sweepCreate today_date node stat coll)

/-- The sweep loop over the client dict.  Iteration only rewrites the node
being visited, so it is the pointwise traversal of the snapshot, threading the
mutable `all_stats` and appending receipt entries in iteration order. -/
def sweepLoop (today_date today_weekday : String) (st : AllStats) :
    ClientData → Except String (ClientData × AllStats × Receipt)
  | [] => .ok ([], st, [])
  | (cid, node) :: rest =>
    match sweepClient today_date today_weekday node with
    | .error e => .error e
    | .ok (node', closed, info?) =>
      match sweepLoop today_date today_weekday (if closed then closeStats st else st) rest with
      | .error e => .error e
      | .ok (restCd, stF, restRec) =>
        .ok ((cid, node') :: restCd, stF,
          match info? with
          | some i => (cid, i) :: restRec
          | none => restRec)

/-- `batch_mark_today`'s transaction body (`/today/batchMark`). -/
def batch_mark_today (today_date today_weekday : String) (o : Option Doc) :
    Except String Doc :=
  let curr := ensure_user_structure o
  let client_data := curr.clientData.getD []
  let all_stats := curr.allStats.getD emptyAllStats
  let batches := curr.batches.getD []
  if containsKey today_date batches then .ok curr
  else
    match sweepLoop today_date today_weekday all_stats client_data with
    | .error e => .error e
    | .ok (cd', st', batch_record) =>
      .ok { curr with
            clientData := some cd'
            allStats := some st'
            batches := some (upsert today_date batch_record batches) }

/-- One iteration of the undo's `for client_id, info in record.items()` body.
An unrecognized `action` value still executes the save-back lines. -/
def undoStep (cid : String) (info : BatchInfo) (cd : ClientData) (st : AllStats) :
    ClientData × AllStats :=
  match lookupKey cid cd with
  | none => (cd, st)
  | some node =>
    if node = emptyClientRecord then (cd, st)
    else
      let coll := node.collectionData.getD []
      let week_key := "week" ++ pyFormatOptInt info.week
      if containsKey week_key coll = false then (cd, st)
      else
        match node.stat with
        | none => (cd, st)
        | some stat =>
          if stat = emptyClientStat then (cd, st)
          else
            let entry := (lookupKey week_key coll).getD emptyEntry
            let amount := entry.Amount.getD 600
            if info.action = some "created" then
              let coll' := eraseKey week_key coll
              let stat1 := { stat with
                WeeksPaid := some (max 0 (stat.WeeksPaid.getD 0 - 1))
                TotalAmountPaid := some (max 0 (stat.TotalAmountPaid.getD 0 - amount)) }
              let reopen := stat1.Status = some "Closed"
              let stat2 := if reopen then { stat1 with Status := some "Active" } else stat1
              let node' := { node with collectionData := some coll', stat := some stat2 }
              (upsert cid node' cd, if reopen then reopenStats st else st)
            else if info.action = some "updated" then
              let coll' := upsert week_key { entry with entryStatus := some "pending" } coll
              let stat1 := { stat with
                WeeksPaid := some (max 0 (stat.WeeksPaid.getD 0 - 1))
                TotalAmountPaid := some (max 0 (stat.TotalAmountPaid.getD 0 - amount)) }
              let reopen := stat1.Status = some "Closed"
              let stat2 := if reopen then { stat1 with Status := some "Active" } else stat1
              let node' := { node with collectionData := some coll', stat := some stat2 }
              (upsert cid node' cd, if reopen then reopenStats st else st)
            else
              (upsert cid { node with collectionData := some coll, stat := some stat } cd, st)

/-- The undo loop over one receipt, in insertion order. -/
def undoLoop : Receipt → ClientData × AllStats → ClientData × AllStats
  | [], acc => acc
  | (cid, info) :: rest, (cd, st) => undoLoop rest (undoStep cid info cd st)

/-- `undo_last_batch`'s transaction body (`/today/undoLastBatch`). -/
def undo_last_batch (o : Option Doc) : Doc :=
  let curr := ensure_user_structure o
  let client_data := curr.clientData.getD []
  let all_stats := curr.allStats.getD emptyAllStats
  let batches := curr.batches.getD []
  if batches = [] then curr
  else
    let last_date := lastSorted (keysOf batches)
    let record := (lookupKey last_date batches).getD []
    let res := undoLoop record (client_data, all_stats)
    { curr with
      clientData := some res.1
      allStats := some res.2
      batches := some (eraseKey last_date batches) }

/-- The advisory `/nextClientId` route: fresh read, `max` of numeric `P`
suffixes plus one (`get_next_client_id_route` in the source). -/
def get_next_client_id_route (o : Option Doc) : String :=
  match o with
  | none => "P1"
  | some d =>
    match d.clientData with
    | none => "P1"
    | some cd =>
      if cd = [] then "P1"
      else
        let max_n : Int := cd.foldl
          (fun m kv =>
            if pyStartsWith kv.1 "P" then
              match pyIntParse (pyDrop kv.1 1) with
              | some nn => if nn > m then nn else m
              | none => m
            else m)
          0
        "P" ++ toString (max_n + 1)

/-! ### Identifier formatting lemmas -/

/-- The client-id format `f"P{i}"`. -/
def pKey (i : Nat) : String := "P" ++ toString i

/-- The week-key format `f"week{n}"` (for a natural week number). -/
def weekKey (i : Nat) : String := "week" ++ toString i

/-- The canonical dense key list `["week1", ..., "weekN"]`. -/
def weekKeys (n : Nat) : List String := (List.range' 1 n).map weekKey

/-- A `collectionData` dict has dense week keys `1..len` in order. -/
def denseWeeks (coll : CollData) : Prop := keysOf coll = weekKeys coll.length

theorem string_append_inj {p a b : String} (h : p ++ a = p ++ b) : a = b := by
  have hd : (p ++ a).data = (p ++ b).data := congrArg String.data h
  rw [string_data_append, string_data_append] at hd
  have := List.append_cancel_left hd
  calc a = String.mk a.data := (string_mk_data a).symm
    _ = String.mk b.data := by rw [this]
    _ = b := string_mk_data b

theorem pKey_inj {a b : Nat} (h : pKey a = pKey b) : a = b :=
  toString_nat_injective (string_append_inj h)

theorem weekKey_inj {a b : Nat} (h : weekKey a = weekKey b) : a = b :=
  toString_nat_injective (string_append_inj h)

theorem pyStartsWith_weekKey (i : Nat) : pyStartsWith (weekKey i) "week" = true :=
  pyStartsWith_append "week" (toString i)

theorem pyReplace_weekKey (i : Nat) : pyReplace (weekKey i) "week" "" = toString i := by
  unfold weekKey
  exact pyReplace_week (toString i) (by rw [toString_nat_data]; exact natDigs_no_w i)

theorem parse_weekKey (i : Nat) :
    pyIntParse (pyReplace (weekKey i) "week" "") = some (i : Int) := by
  rw [pyReplace_weekKey]
  exact pyIntParse_toString_nat i

theorem pyDrop_pKey (i : Nat) : pyDrop (pKey i) 1 = toString i := by
  show pyDrop (⟨['P']⟩ ++ toString i) 1 = toString i
  exact pyDrop_one_append (toString i) 'P'

theorem pyStartsWith_pKey (i : Nat) : pyStartsWith (pKey i) "P" = true :=
  pyStartsWith_append "P" (toString i)

/-! ### The first-free-id scan -/

theorem exists_free_idx (cd : ClientData) :
    ∃ j, 1 ≤ j ∧ j ≤ cd.length + 1 ∧ containsKey (pKey j) cd = false := by
  by_contra hall
  push_neg at hall
  have hsub : ((List.range' 1 (cd.length + 1)).map pKey) ⊆ keysOf cd := by
    intro s hs
    rcases List.mem_map.mp hs with ⟨j, hj, rfl⟩
    rcases List.mem_range'.mp hj with ⟨hj1, hj2⟩
    have hc := hall j (by omega) (by omega)
    have : containsKey (pKey j) cd = true := by
      cases h : containsKey (pKey j) cd
      · exact absurd h hc
      · rfl
    exact containsKey_iff.mp this
  have hnd : ((List.range' 1 (cd.length + 1)).map pKey).Nodup :=
    (List.nodup_range' 1 (cd.length + 1)).map (fun a b => pKey_inj)
  have hle := (List.subperm_of_subset hnd hsub).length_le
  rw [List.length_map, List.length_range'] at hle
  unfold keysOf at hle
  rw [List.length_map] at hle
  omega

theorem findFreeIdx_spec (cd : ClientData) :
    ∀ fuel i, (∃ j, i ≤ j ∧ j < i + fuel ∧ containsKey (pKey j) cd = false) →
      containsKey (pKey (findFreeIdx cd i fuel)) cd = false ∧
      i ≤ findFreeIdx cd i fuel ∧
      ∀ j, i ≤ j → j < findFreeIdx cd i fuel → containsKey (pKey j) cd = true := by
  intro fuel
  induction fuel with
  | zero =>
    intro i ⟨j, h1, h2, _⟩
    omega
  | succ fuel ih =>
    intro i ⟨j, h1, h2, hj⟩
    simp only [findFreeIdx]
    by_cases hc : containsKey ("P" ++ toString i) cd = true
    · rw [if_pos hc]
      have hji : j ≠ i := by
        intro e
        rw [e, show pKey i = "P" ++ toString i from rfl, hc] at hj
        cases hj
      have hex : ∃ j, i + 1 ≤ j ∧ j < (i + 1) + fuel ∧ containsKey (pKey j) cd = false :=
        ⟨j, by omega, by omega, hj⟩
      obtain ⟨hf, hge, hall⟩ := ih (i + 1) hex
      refine ⟨hf, by omega, fun j' hj1 hj2 => ?_⟩
      by_cases hji' : j' = i
      · rw [hji']
        exact hc
      · exact hall j' (by omega) hj2
    · rw [if_neg hc]
      have hc' : containsKey ("P" ++ toString i) cd = false := by
        cases h : containsKey ("P" ++ toString i) cd
        · rfl
        · exact absurd h hc
      exact ⟨hc', le_refl i, fun j' hj1 hj2 => by omega⟩

/-- `get_next_client_id` returns the smallest unused `P<n>` identifier. -/
theorem get_next_client_id_least (cd : ClientData) :
    ∃ m, get_next_client_id cd = pKey m ∧ 1 ≤ m ∧
      containsKey (pKey m) cd = false ∧
      ∀ j, 1 ≤ j → j < m → containsKey (pKey j) cd = true := by
  obtain ⟨j, hj1, hj2, hj⟩ := exists_free_idx cd
  obtain ⟨hf, hge, hall⟩ := findFreeIdx_spec cd (cd.length + 1) 1 ⟨j, hj1, by omega, hj⟩
  exact ⟨findFreeIdx cd 1 (cd.length + 1), rfl, hge, hf, hall⟩

/-! ### Dense week-key lemmas -/

theorem weekNumsOf_eq_keys (coll : CollData) :
    weekNumsOf coll = (keysOf coll).filterMap
      (fun k => if pyStartsWith k "week" then pyIntParse (pyReplace k "week" "") else none) := by
  unfold weekNumsOf keysOf
  rw [List.filterMap_map]
  rfl

theorem filterMap_weekKey_parse (r : List Nat) :
    r.filterMap (fun i =>
      if pyStartsWith (weekKey i) "week" then pyIntParse (pyReplace (weekKey i) "week" "")
      else none) = r.map Int.ofNat := by
  induction r with
  | nil => rfl
  | cons a t ih =>
    rw [List.filterMap_cons, if_pos (pyStartsWith_weekKey a), parse_weekKey a, ih]
    rfl

theorem weekNumsOf_dense {coll : CollData} (h : denseWeeks coll) :
    weekNumsOf coll = (List.range' 1 coll.length).map Int.ofNat := by
  rw [weekNumsOf_eq_keys, h]
  unfold weekKeys
  rw [List.filterMap_map]
  exact filterMap_weekKey_parse (List.range' 1 coll.length)

theorem mem_range1 {s n m : Nat} : m ∈ List.range' s n ↔ s ≤ m ∧ m < s + n := by
  rw [List.mem_range']
  constructor
  · rintro ⟨i, hi, rfl⟩; omega
  · intro ⟨h1, h2⟩; exact ⟨m - s, by omega, by omega⟩

theorem pyMaxD0_ofNat_range (n : Nat) :
    pyMaxD0 ((List.range' 1 n).map Int.ofNat) = if n = 0 then 0 else (n : Int) := by
  cases n with
  | zero => rfl
  | succ m =>
    rw [if_neg (Nat.succ_ne_zero m)]
    have hc : List.map Int.ofNat [1 + 1 * m] = [((m + 1 : Nat) : Int)] := by
      have : 1 + 1 * m = m + 1 := by omega
      rw [this]; rfl
    rw [List.range'_concat, List.map_append, hc]
    refine pyMaxD0_append_top ?_
    intro x hx
    rcases List.mem_map.mp hx with ⟨j, hj, rfl⟩
    rcases mem_range1.mp hj with ⟨hj1, hj2⟩
    show (j : Int) ≤ ((m + 1 : Nat) : Int)
    have : j ≤ m + 1 := by omega
    exact_mod_cast this

theorem weekKey_fresh {n : Nat} {j : Nat} (hj : j ∈ List.range' 1 n) :
    weekKey j ≠ weekKey (n + 1) := by
  intro e
  rcases mem_range1.mp hj with ⟨h1, h2⟩
  have := weekKey_inj e
  omega

theorem weekKey_succ_not_mem {coll : CollData} (h : denseWeeks coll) :
    weekKey (coll.length + 1) ∉ keysOf coll := by
  rw [h]
  intro hm
  rcases List.mem_map.mp hm with ⟨j, hj, he⟩
  exact weekKey_fresh hj he

/-- Under dense keys, the computed `next_week` is `len + 1` (as an `Int`). -/
theorem next_week_dense {coll : CollData} (h : denseWeeks coll) :
    pyMaxD0 (weekNumsOf coll) + 1 = ((coll.length + 1 : Nat) : Int) := by
  rw [weekNumsOf_dense h, pyMaxD0_ofNat_range]
  by_cases h0 : coll.length = 0
  · rw [if_pos h0, h0]; rfl
  · rw [if_neg h0]; push_cast; ring

theorem toString_next_week {n : Nat} :
    toString (((n + 1 : Nat) : Int)) = toString (n + 1) := toString_int_ofNat (n + 1)

theorem denseWeeks_append {coll : CollData} (h : denseWeeks coll) (e : Entry) :
    denseWeeks (coll ++ [(weekKey (coll.length + 1), e)]) := by
  unfold denseWeeks at *
  unfold keysOf at *
  rw [List.map_append, h, List.length_append]
  show weekKeys coll.length ++ [weekKey (coll.length + 1)] = weekKeys (coll.length + 1)
  unfold weekKeys
  rw [List.range'_concat, List.map_append]
  have : 1 + 1 * coll.length = coll.length + 1 := by omega
  rw [this]
  rfl

theorem denseWeeks_nil : denseWeeks [] := rfl

/-- Replacing the value at an existing key leaves `denseWeeks` intact. -/
theorem denseWeeks_upsert_mem {coll : CollData} {k : String} {e : Entry}
    (h : denseWeeks coll) (hk : k ∈ keysOf coll) : denseWeeks (upsert k e coll) := by
  unfold denseWeeks at *
  have hlen : (upsert k e coll).length = coll.length := by
    have := congrArg List.length (keysOf_upsert_mem (v := e) hk)
    unfold keysOf at this
    rw [List.length_map, List.length_map] at this
    exact this
  rw [keysOf_upsert_mem hk, hlen]
  exact h

/-- Every key of a dense `collectionData` is some `weekKey j`, `1 ≤ j ≤ len`. -/
theorem dense_key_shape {coll : CollData} (h : denseWeeks coll) {k : String}
    (hk : k ∈ keysOf coll) : ∃ j, 1 ≤ j ∧ j ≤ coll.length ∧ k = weekKey j := by
  rw [h] at hk
  rcases List.mem_map.mp hk with ⟨j, hj, rfl⟩
  rcases mem_range1.mp hj with ⟨h1, h2⟩
  exact ⟨j, h1, by omega, rfl⟩

/-! ### Registrar claims -/

theorem containsKey_eq_false_iff {k : String} {l : List (String × α)} :
    containsKey k l = false ↔ k ∉ keysOf l := by
  constructor
  · intro h hm
    rw [containsKey_iff.mpr hm] at h
    cases h
  · intro h
    unfold containsKey
    rw [lookupKey_eq_none.mpr h]
    rfl

theorem txn_add_new_client_run (d : Doc) (all_stats : AllStats) (cd : ClientData)
    (lend_date collection_day : String)
    (hs : d.allStats = some all_stats) (hc : d.clientData = some cd) :
    txn_add_new_client lend_date collection_day (some d) =
      .ok { d with
            clientData := some (upsert (get_next_client_id cd)
              ⟨some ⟨some (get_next_client_id cd), some collection_day, some lend_date,
                     some "Active", some 0, some 0⟩, some []⟩ cd)
            allStats := some ⟨some (all_stats.TotalLoans.getD 0 + 1),
                              some (all_stats.ActiveLoans.getD 0 + 1),
                              some (all_stats.ClosedLoans.getD 0)⟩ } := by
  simp only [txn_add_new_client, hs, hc]

/-- Claim C8: for a document with `AllStats` and `ClientData` present,
`addClient` allocates the smallest unused `P<n>` id (scanning n = 1, 2, ...),
appends a record with `Status Active`, `WeeksPaid 0`, `TotalAmountPaid 0`, the
given day and date and empty `collectionData`, and bumps `TotalLoans` and
`ActiveLoans` by one while `ClosedLoans` keeps its value. -/
theorem claim_C8_addClient_least_unused_id (d : Doc) (all_stats : AllStats)
    (cd : ClientData) (lend_date collection_day : String)
    (hs : d.allStats = some all_stats) (hc : d.clientData = some cd) :
    (∃ m, get_next_client_id cd = pKey m ∧ 1 ≤ m ∧
      containsKey (pKey m) cd = false ∧
      (∀ j, 1 ≤ j → j < m → containsKey (pKey j) cd = true)) ∧
    txn_add_new_client lend_date collection_day (some d) =
      .ok { d with
            clientData := some (cd ++ [(get_next_client_id cd,
              ⟨some ⟨some (get_next_client_id cd), some collection_day, some lend_date,
                     some "Active", some 0, some 0⟩, some []⟩)])
            allStats := some ⟨some (all_stats.TotalLoans.getD 0 + 1),
                              some (all_stats.ActiveLoans.getD 0 + 1),
                              some (all_stats.ClosedLoans.getD 0)⟩ } := by
  obtain ⟨m, hid, hm1, hfree, hleast⟩ := get_next_client_id_least cd
  have hnm : get_next_client_id cd ∉ keysOf cd := by
    rw [hid]; exact containsKey_eq_false_iff.mp hfree
  constructor
  · exact ⟨m, hid, hm1, hfree, hleast⟩
  · rw [txn_add_new_client_run d all_stats cd lend_date collection_day hs hc,
      upsert_eq_append hnm]

theorem claim_C8_addClient_least_unused_id_witness :
    (∃ m, get_next_client_id [] = pKey m ∧ 1 ≤ m ∧
      containsKey (pKey m) ([] : ClientData) = false ∧
      (∀ j, 1 ≤ j → j < m → containsKey (pKey j) ([] : ClientData) = true)) ∧
    txn_add_new_client "2024-01-01" "MON" (some ⟨some zeroAllStats, some [], none, true⟩) =
      .ok { (⟨some zeroAllStats, some [], none, true⟩ : Doc) with
            clientData := some ([] ++ [(get_next_client_id [],
              ⟨some ⟨some (get_next_client_id []), some "MON", some "2024-01-01",
                     some "Active", some 0, some 0⟩, some []⟩)])
            allStats := some ⟨some (zeroAllStats.TotalLoans.getD 0 + 1),
                              some (zeroAllStats.ActiveLoans.getD 0 + 1),
                              some (zeroAllStats.ClosedLoans.getD 0)⟩ } :=
  claim_C8_addClient_least_unused_id ⟨some zeroAllStats, some [], none, true⟩
    zeroAllStats [] "2024-01-01" "MON" rfl rfl

/-- Claim C10: the record created by a successful `addClient` has its
`ClientName` equal to the allocated client id itself; the operation takes no
caller-supplied name (its only inputs are the lend date and collection day). -/
theorem claim_C10_client_name_is_id (d : Doc) (all_stats : AllStats)
    (cd : ClientData) (lend_date collection_day : String)
    (hs : d.allStats = some all_stats) (hc : d.clientData = some cd) :
    ∃ d' node stat, txn_add_new_client lend_date collection_day (some d) = .ok d' ∧
      d'.clientData = some (upsert (get_next_client_id cd) node cd) ∧
      node.stat = some stat ∧
      stat.ClientName = some (get_next_client_id cd) := by
  refine ⟨_, _, _, txn_add_new_client_run d all_stats cd lend_date collection_day hs hc,
    rfl, rfl, rfl⟩

theorem claim_C10_client_name_is_id_witness :
    ∃ d' node stat,
      txn_add_new_client "2024-01-01" "MON" (some ⟨some zeroAllStats, some [], none, true⟩) =
        .ok d' ∧
      d'.clientData = some (upsert (get_next_client_id []) node []) ∧
      node.stat = some stat ∧
      stat.ClientName = some (get_next_client_id []) :=
  claim_C10_client_name_is_id ⟨some zeroAllStats, some [], none, true⟩
    zeroAllStats [] "2024-01-01" "MON" rfl rfl

/-- The fold step of the `/nextClientId` route, acting on one key. -/
def routeStep (m : Int) (k : String) : Int :=
  if pyStartsWith k "P" then
    match pyIntParse (pyDrop k 1) with
    | some nn => if nn > m then nn else m
    | none => m
  else m

theorem max_if_comm (b a c : Int) :
    (if c > if a > b then a else b then c else if a > b then a else b)
      = (if a > if c > b then c else b then a else if c > b then c else b) := by
  split_ifs <;> omega

theorem routeStep_right_comm : RightCommutative routeStep := by
  refine ⟨fun b k1 k2 => ?_⟩
  unfold routeStep
  by_cases h1 : pyStartsWith k1 "P" = true
  · by_cases h2 : pyStartsWith k2 "P" = true
    · simp only [if_pos h1, if_pos h2]
      cases pyIntParse (pyDrop k1 1) with
      | none => cases pyIntParse (pyDrop k2 1) <;> rfl
      | some a =>
        cases pyIntParse (pyDrop k2 1) with
        | none => rfl
        | some c => exact max_if_comm b a c
    · simp only [if_pos h1, if_neg h2]
  · by_cases h2 : pyStartsWith k2 "P" = true
    · simp only [if_neg h1, if_pos h2]
    · simp only [if_neg h1, if_neg h2]

theorem route_fold_eq_keys (cd : ClientData) (a : Int) :
    cd.foldl
      (fun m kv =>
        if pyStartsWith kv.1 "P" then
          match pyIntParse (pyDrop kv.1 1) with
          | some nn => if nn > m then nn else m
          | none => m
        else m)
      a = (keysOf cd).foldl routeStep a := by
  unfold keysOf
  rw [List.foldl_map]
  rfl

theorem routeStep_pKey (m : Int) (j : Nat) :
    routeStep m (pKey j) = if (j : Int) > m then (j : Int) else m := by
  unfold routeStep
  rw [if_pos (pyStartsWith_pKey j), pyDrop_pKey, pyIntParse_toString_nat j]

theorem route_fold_pKey_range (n : Nat) :
    (List.range' 1 n).foldl (fun m j => routeStep m (pKey j)) 0 = (n : Int) := by
  induction n with
  | zero => rfl
  | succ m ih =>
    rw [List.range'_concat, List.foldl_append]
    show routeStep ((List.range' 1 m).foldl (fun m j => routeStep m (pKey j)) 0) (pKey (1 + 1 * m))
      = ((m + 1 : Nat) : Int)
    rw [ih, routeStep_pKey]
    have h1m : 1 + 1 * m = m + 1 := by omega
    rw [h1m]
    have : ((m + 1 : Nat) : Int) > (m : Nat) := by exact_mod_cast Nat.lt_succ_self m
    rw [if_pos this]

theorem pKey_mem_range_iff {n j : Nat} :
    pKey j ∈ (List.range' 1 n).map pKey ↔ 1 ≤ j ∧ j ≤ n := by
  constructor
  · intro h
    rcases List.mem_map.mp h with ⟨i, hi, he⟩
    rcases mem_range1.mp hi with ⟨h1, h2⟩
    have := pKey_inj he
    omega
  · intro ⟨h1, h2⟩
    exact List.mem_map.mpr ⟨j, mem_range1.mpr ⟨h1, by omega⟩, rfl⟩

/-- Claim C9: on a `ClientData` whose keys are exactly `{P1, ..., Pn}` (in any
insertion order), the authoritative first-unused-id scan and the advisory
max-plus-one preview agree: both return `P(n+1)`. -/
theorem claim_C9_preview_agrees_with_scan (d : Doc) (cd : ClientData) (n : Nat)
    (hc : d.clientData = some cd)
    (hkeys : List.Perm (keysOf cd) ((List.range' 1 n).map pKey)) :
    get_next_client_id cd = pKey (n + 1) ∧
    get_next_client_id_route (some d) = pKey (n + 1) := by
  have hmem : ∀ j : Nat, containsKey (pKey j) cd = true ↔ (1 ≤ j ∧ j ≤ n) := by
    intro j
    rw [containsKey_iff]
    rw [hkeys.mem_iff]
    exact pKey_mem_range_iff
  constructor
  · obtain ⟨m, hid, hm1, hfree, hleast⟩ := get_next_client_id_least cd
    have hm_gt : ¬ (1 ≤ m ∧ m ≤ n) := by
      intro hmn
      rw [(hmem m).mpr hmn] at hfree
      cases hfree
    have hm_le : m ≤ n + 1 := by
      by_contra hgt
      have := hleast (n + 1) (by omega) (by omega)
      rw [hmem (n + 1)] at this
      omega
    have : m = n + 1 := by omega
    rw [hid, this]
  · simp only [get_next_client_id_route, hc]
    by_cases hnil : cd = []
    · rw [if_pos hnil]
      have hperm : List.Perm (keysOf ([] : ClientData)) ((List.range' 1 n).map pKey) := hnil ▸ hkeys
      have hlen := hperm.length_eq
      simp only [keysOf, List.map_nil, List.length_nil, List.length_map,
        List.length_range'] at hlen
      rw [← hlen]
      rfl
    · rw [if_neg hnil, route_fold_eq_keys]
      letI := routeStep_right_comm
      rw [hkeys.foldl_eq 0, List.foldl_map, route_fold_pKey_range n]
      have hcast : (n : Int) + 1 = ((n + 1 : Nat) : Int) := by push_cast; ring
      rw [hcast]
      rfl

theorem claim_C9_preview_agrees_with_scan_witness :
    get_next_client_id [("P2", emptyClientRecord), ("P1", emptyClientRecord)] = pKey 3 ∧
    get_next_client_id_route
      (some ⟨none, some [("P2", emptyClientRecord), ("P1", emptyClientRecord)], none, false⟩)
      = pKey 3 :=
  claim_C9_preview_agrees_with_scan
    ⟨none, some [("P2", emptyClientRecord), ("P1", emptyClientRecord)], none, false⟩
    [("P2", emptyClientRecord), ("P1", emptyClientRecord)] 2 rfl (by decide)

/-! ### Sweep idempotence (C5) -/

theorem ensure_lastBatch (o : Option Doc) : (ensure_user_structure o).lastBatch = true := by
  cases o <;> rfl

theorem ensure_allStats_isSome (o : Option Doc) :
    (ensure_user_structure o).allStats.isSome = true := by
  cases o <;> rfl

theorem ensure_clientData_isSome (o : Option Doc) :
    (ensure_user_structure o).clientData.isSome = true := by
  cases o <;> rfl

theorem ensure_of_shape {d : Doc} (h1 : d.allStats.isSome = true)
    (h2 : d.clientData.isSome = true) (h3 : d.lastBatch = true) :
    ensure_user_structure (some d) = d := by
  obtain ⟨s, hs⟩ := Option.isSome_iff_exists.mp h1
  obtain ⟨c, hc⟩ := Option.isSome_iff_exists.mp h2
  obtain ⟨a1, a2, a3, a4⟩ := d
  simp only at hs hc h3
  subst hs hc h3
  rfl

theorem containsKey_upsert_self {k : String} {v : α} {l : List (String × α)} :
    containsKey k (upsert k v l) = true := by
  unfold containsKey
  rw [lookupKey_upsert_self]
  rfl

/-- Claim C5: calling the sweep a second time on the same date returns the
post-first-call document unchanged: `batches[today]` is present after the
first call, so the idempotency gate short-circuits. -/
theorem claim_C5_sweep_idempotent (today_date today_weekday : String)
    (o : Option Doc) (d1 : Doc)
    (h : batch_mark_today today_date today_weekday o = .ok d1) :
    batch_mark_today today_date today_weekday (some d1) = .ok d1 := by
  unfold batch_mark_today at h
  by_cases hgate : containsKey today_date ((ensure_user_structure o).batches.getD []) = true
  · rw [if_pos hgate] at h
    have hd1 : d1 = ensure_user_structure o := (Except.ok.inj h).symm
    unfold batch_mark_today
    have hens : ensure_user_structure (some d1) = d1 := by
      rw [hd1]
      exact ensure_of_shape (ensure_allStats_isSome o) (ensure_clientData_isSome o)
        (ensure_lastBatch o)
    rw [hens, if_pos (hd1 ▸ hgate)]
  · rw [if_neg hgate] at h
    cases hloop : sweepLoop today_date today_weekday
        ((ensure_user_structure o).allStats.getD emptyAllStats)
        ((ensure_user_structure o).clientData.getD []) with
    | error e => rw [hloop] at h; cases h
    | ok res =>
      obtain ⟨cd', st', rec⟩ := res
      rw [hloop] at h
      have hd1 : d1 = { ensure_user_structure o with
          clientData := some cd'
          allStats := some st'
          batches := some (upsert today_date rec ((ensure_user_structure o).batches.getD [])) } :=
        (Except.ok.inj h).symm
      unfold batch_mark_today
      have hens : ensure_user_structure (some d1) = d1 := by
        rw [hd1]
        exact ensure_of_shape rfl rfl (ensure_lastBatch o)
      rw [hens]
      have hgate2 : containsKey today_date (d1.batches.getD []) = true := by
        rw [hd1]
        exact containsKey_upsert_self
      rw [if_pos hgate2]

theorem claim_C5_sweep_idempotent_witness :
    batch_mark_today "2024-01-08" "MON"
      (some ⟨some zeroAllStats, some [], some [("2024-01-08", [])], true⟩) =
      .ok ⟨some zeroAllStats, some [], some [("2024-01-08", [])], true⟩ :=
  claim_C5_sweep_idempotent "2024-01-08" "MON" none
    ⟨some zeroAllStats, some [], some [("2024-01-08", [])], true⟩ (by rfl)

/-! ### Payment poster effects (C7) -/

/-- Claim C7: a successful `postEntry` on a well-formed document and an
existing `Active` client appends the new entry at week `(max existing week,
default 0) + 1 = len + 1`; with `status = "paid"` it bumps `WeeksPaid` by one
and `TotalAmountPaid` by `amount`, any other status leaves both counters
unchanged; and when the updated `WeeksPaid` reaches 20 the status flips to
`Closed` with `ActiveLoans - 1` and `ClosedLoans + 1` (`closeStats`). -/
theorem claim_C7_postEntry_effects
    (d : Doc) (all_stats : AllStats) (cd : ClientData) (node : ClientRecord)
    (stat : ClientStat) (coll : CollData)
    (client_id : String) (amount : Int) (date_str status : String)
    (hs : d.allStats = some all_stats) (hc : d.clientData = some cd)
    (hn : lookupKey client_id cd = some node)
    (hst : node.stat = some stat)
    (hactive : stat.Status = some "Active")
    (hcoll : node.collectionData = some coll) (hdense : denseWeeks coll)
    (hcap : coll.length + 1 ≤ 20) :
    txn_add_entry client_id amount date_str status (some d) =
      .ok { d with
        clientData := some (upsert client_id
          { node with
            collectionData := some (coll ++
              [(weekKey (coll.length + 1), ⟨some amount, some date_str, some status⟩)])
            stat := some (
              if (if status = "paid" then stat.WeeksPaid.getD 0 + 1
                  else stat.WeeksPaid.getD 0) ≥ 20 then
                { stat with
                  WeeksPaid := some (if status = "paid" then stat.WeeksPaid.getD 0 + 1
                    else stat.WeeksPaid.getD 0)
                  TotalAmountPaid := some (if status = "paid" then
                    stat.TotalAmountPaid.getD 0 + amount else stat.TotalAmountPaid.getD 0)
                  Status := some "Closed" }
              else
                { stat with
                  WeeksPaid := some (if status = "paid" then stat.WeeksPaid.getD 0 + 1
                    else stat.WeeksPaid.getD 0)
                  TotalAmountPaid := some (if status = "paid" then
                    stat.TotalAmountPaid.getD 0 + amount else stat.TotalAmountPaid.getD 0) }) }
          cd)
        allStats := some
          (if (if status = "paid" then stat.WeeksPaid.getD 0 + 1
               else stat.WeeksPaid.getD 0) ≥ 20 then closeStats all_stats else all_stats) } := by
  have hne : node ≠ emptyClientRecord := by
    intro he
    rw [he] at hst
    cases hst
  have hstne : stat ≠ emptyClientStat := by
    intro he
    rw [he] at hactive
    cases hactive
  have hopen : ¬ stat.Status = some "Closed" := by
    rw [hactive]
    intro he
    exact absurd (Option.some_inj.mp he) (by decide)
  have hnw : pyMaxD0 (weekNumsOf coll) + 1 = ((coll.length + 1 : Nat) : Int) :=
    next_week_dense hdense
  have hcap' : ¬ pyMaxD0 (weekNumsOf coll) + 1 > 20 := by
    rw [hnw]
    have : ((coll.length + 1 : Nat) : Int) ≤ 20 := by exact_mod_cast hcap
    omega
  have hkey : "week" ++ toString (pyMaxD0 (weekNumsOf coll) + 1) = weekKey (coll.length + 1) := by
    rw [hnw]
    rfl
  have hfresh : weekKey (coll.length + 1) ∉ keysOf coll := weekKey_succ_not_mem hdense
  simp only [txn_add_entry, hs, hc, hn, if_neg hne, hst, if_neg hstne, if_neg hopen,
    hcoll, Option.getD_some, if_neg hcap', hkey, upsert_eq_append hfresh]

def c7stat : ClientStat :=
  ⟨some "P1", some "MON", some "2024-01-01", some "Active", some 0, some 0⟩

def c7node : ClientRecord := ⟨some c7stat, some []⟩

def c7doc : Doc := ⟨some zeroAllStats, some [("P1", c7node)], none, true⟩

def c7res : Doc :=
  ⟨some zeroAllStats,
   some [("P1", ⟨some ⟨some "P1", some "MON", some "2024-01-01", some "Active",
     some 600, some 1⟩, some [("week1", ⟨some 600, some "2024-01-15", some "paid"⟩)]⟩)],
   none, true⟩

theorem claim_C7_postEntry_effects_witness :
    txn_add_entry "P1" 600 "2024-01-15" "paid" (some c7doc) = .ok c7res := by
  have h := claim_C7_postEntry_effects c7doc zeroAllStats [("P1", c7node)] c7node c7stat []
    "P1" 600 "2024-01-15" "paid" rfl rfl (by decide) rfl rfl rfl denseWeeks_nil (by decide)
  rw [h]
  rfl

/-! ### Poster error conditions and sweep capacity skip (C6) -/

/-- Claim C6: `postEntry` raises (aborting the transaction, so the document is
untouched) exactly when the document is absent, `AllStats` or `ClientData` is
missing, the client id is not found (or its node is Python-falsy, i.e. empty,
whose stat is then also missing), the stat record is missing or empty, the
`Status` is `Closed`, or the next week index would exceed 20; whereas the
sweep (`sweepClient`) silently skips an over-capacity client, leaving its node
and the stats untouched and writing no receipt entry. -/
theorem claim_C6_postEntry_failure_iff_and_sweep_skips :
    (∀ (cid : String) (amt : Int) (ds st : String),
      ∃ e, txn_add_entry cid amt ds st none = .error e) ∧
    (∀ (cid : String) (amt : Int) (ds st : String) (d : Doc),
      (∃ e, txn_add_entry cid amt ds st (some d) = .error e) ↔
        (d.allStats = none ∨ d.clientData = none ∨
          (∃ cd, d.clientData = some cd ∧
            (lookupKey cid cd = none ∨
              (∃ node, lookupKey cid cd = some node ∧
                (node.stat = none ∨ node.stat = some emptyClientStat ∨
                  (∃ stat, node.stat = some stat ∧
                    (stat.Status = some "Closed" ∨
                      pyMaxD0 (weekNumsOf (node.collectionData.getD [])) + 1 > 20)))))))) ∧
    (∀ (today_date today_weekday : String) (node : ClientRecord) (stat : ClientStat),
      node.stat = some stat → stat ≠ emptyClientStat →
      pyLower (stat.Status.getD "") = "active" →
      stat.CollectionDay = some today_weekday →
      find_today_entry (node.collectionData.getD []) today_date = none →
      pyMaxD0 (weekNumsOf (node.collectionData.getD [])) + 1 > 20 →
      sweepClient today_date today_weekday node = .ok (node, false, none)) := by
  refine ⟨?_, ?_, ?_⟩
  · intro cid amt ds st
    exact ⟨_, rfl⟩
  · intro cid amt ds st d
    cases hs : d.allStats with
    | none =>
      have hrun : txn_add_entry cid amt ds st (some d) = .error "Corrupt user structure" := by
        simp only [txn_add_entry, hs]
      exact ⟨fun _ => Or.inl rfl, fun _ => ⟨_, hrun⟩⟩
    | some all_stats =>
      cases hc : d.clientData with
      | none =>
        have hrun : txn_add_entry cid amt ds st (some d) = .error "Corrupt user structure" := by
          simp only [txn_add_entry, hs, hc]
        exact ⟨fun _ => Or.inr (Or.inl rfl), fun _ => ⟨_, hrun⟩⟩
      | some cd =>
        have hnotl : ¬ d.allStats = none := by rw [hs]; intro h; cases h
        have hnotc : ¬ d.clientData = none := by rw [hc]; intro h; cases h
        cases hn : lookupKey cid cd with
        | none =>
          have hrun : txn_add_entry cid amt ds st (some d) = .error "Client not found" := by
            simp only [txn_add_entry, hs, hc, hn]
          exact ⟨fun _ => Or.inr (Or.inr ⟨cd, rfl, Or.inl hn⟩), fun _ => ⟨_, hrun⟩⟩
        | some node =>
          by_cases hne : node = emptyClientRecord
          · have hrun : txn_add_entry cid amt ds st (some d) = .error "Client not found" := by
              simp only [txn_add_entry, hs, hc, hn, if_pos hne]
            refine ⟨fun _ => Or.inr (Or.inr ⟨cd, rfl, Or.inr ⟨node, hn, Or.inl ?_⟩⟩),
              fun _ => ⟨_, hrun⟩⟩
            rw [hne]
            rfl
          · cases hst : node.stat with
            | none =>
              have hrun : txn_add_entry cid amt ds st (some d)
                  = .error "Client stat missing" := by
                simp only [txn_add_entry, hs, hc, hn, if_neg hne, hst]
              exact ⟨fun _ => Or.inr (Or.inr ⟨cd, rfl, Or.inr ⟨node, hn, Or.inl hst⟩⟩),
                fun _ => ⟨_, hrun⟩⟩
            | some stat =>
              by_cases hse : stat = emptyClientStat
              · have hrun : txn_add_entry cid amt ds st (some d)
                    = .error "Client stat missing" := by
                  simp only [txn_add_entry, hs, hc, hn, if_neg hne, hst, if_pos hse]
                exact ⟨fun _ => Or.inr (Or.inr ⟨cd, rfl, Or.inr ⟨node, hn,
                  Or.inr (Or.inl (hse ▸ hst))⟩⟩), fun _ => ⟨_, hrun⟩⟩
              · by_cases hcl : stat.Status = some "Closed"
                · have hrun : txn_add_entry cid amt ds st (some d)
                      = .error "Client already closed" := by
                    simp only [txn_add_entry, hs, hc, hn, if_neg hne, hst, if_neg hse,
                      if_pos hcl]
                  exact ⟨fun _ => Or.inr (Or.inr ⟨cd, rfl, Or.inr ⟨node, hn,
                    Or.inr (Or.inr ⟨stat, hst, Or.inl hcl⟩)⟩⟩), fun _ => ⟨_, hrun⟩⟩
                · by_cases hcap : pyMaxD0 (weekNumsOf (node.collectionData.getD [])) + 1 > 20
                  · have hrun : txn_add_entry cid amt ds st (some d)
                        = .error "Max 20 weeks reached" := by
                      simp only [txn_add_entry, hs, hc, hn, if_neg hne, hst, if_neg hse,
                        if_neg hcl, if_pos hcap]
                    exact ⟨fun _ => Or.inr (Or.inr ⟨cd, rfl, Or.inr ⟨node, hn,
                      Or.inr (Or.inr ⟨stat, hst, Or.inr hcap⟩)⟩⟩), fun _ => ⟨_, hrun⟩⟩
                  · constructor
                    · intro ⟨e, he⟩
                      simp only [txn_add_entry, hs, hc, hn, if_neg hne, hst, if_neg hse,
                        if_neg hcl, if_neg hcap] at he
                      exact Except.noConfusion he
                    · intro hrhs
                      rcases hrhs with h | h | ⟨cd', hcd', h⟩
                      · cases h
                      · cases h
                      · cases Option.some_inj.mp hcd'
                        rcases h with h | ⟨node', hn', h⟩
                        · rw [hn] at h
                          cases h
                        · rw [hn] at hn'
                          cases Option.some_inj.mp hn'
                          rcases h with h | h | ⟨stat', hst', h⟩
                          · rw [hst] at h
                            cases h
                          · rw [hst] at h
                            exact absurd (Option.some_inj.mp h) hse
                          · rw [hst] at hst'
                            cases Option.some_inj.mp hst'
                            rcases h with h | h
                            · exact absurd h hcl
                            · exact absurd h hcap
  · intro today_date today_weekday node stat hst hse hact hday hfind hcap
    have hactx : ¬ pyLower (stat.Status.getD "") ≠ "active" := by
      rw [hact]
      exact fun h => h rfl
    have hdayx : ¬ stat.CollectionDay ≠ some today_weekday := by
      rw [hday]
      exact fun h => h rfl
    simp only [sweepClient, hst, if_neg hse, if_neg hactx, if_neg hdayx, hfind,
      sweepCreate, if_pos hcap]

theorem claim_C6_postEntry_failure_iff_and_sweep_skips_witness :
    (∃ e, txn_add_entry "P1" 600 "2024-01-15" "paid" none = .error e) ∧
    ((∃ e, txn_add_entry "P1" 600 "2024-01-15" "paid"
        (some ⟨some zeroAllStats, some [], none, true⟩) = .error e) ↔
      ((⟨some zeroAllStats, some [], none, true⟩ : Doc).allStats = none ∨
        (⟨some zeroAllStats, some [], none, true⟩ : Doc).clientData = none ∨
        (∃ cd, (⟨some zeroAllStats, some [], none, true⟩ : Doc).clientData = some cd ∧
          (lookupKey "P1" cd = none ∨
            (∃ node, lookupKey "P1" cd = some node ∧
              (node.stat = none ∨ node.stat = some emptyClientStat ∨
                (∃ stat, node.stat = some stat ∧
                  (stat.Status = some "Closed" ∨
                    pyMaxD0 (weekNumsOf (node.collectionData.getD [])) + 1 > 20)))))))) ∧
    sweepClient "2024-01-08" "MON"
      ⟨some ⟨some "P1", some "MON", some "2024-01-01", some "Active", some 12000, some 20⟩,
       some ((List.range' 1 20).map
         (fun i => (weekKey i, ⟨some 600, some "2024-01-01", some "paid"⟩)))⟩ =
      .ok (⟨some ⟨some "P1", some "MON", some "2024-01-01", some "Active", some 12000, some 20⟩,
       some ((List.range' 1 20).map
         (fun i => (weekKey i, ⟨some 600, some "2024-01-01", some "paid"⟩)))⟩, false, none) := by
  refine ⟨claim_C6_postEntry_failure_iff_and_sweep_skips.1 "P1" 600 "2024-01-15" "paid",
    claim_C6_postEntry_failure_iff_and_sweep_skips.2.1 "P1" 600 "2024-01-15" "paid" _,
    claim_C6_postEntry_failure_iff_and_sweep_skips.2.2 "2024-01-08" "MON" _ _
      rfl (by decide) (by decide) rfl (by decide) (by decide)⟩

/-! ### Reachability and the stats-sum invariant (C3) -/

/-- Ledger states reachable from the empty repaired ledger by successful
`addClient`, `postEntry`, `sweepToday` and `undoLastBatch` transforms. -/
inductive Reachable : Doc → Prop
  | init : Reachable (ensure_user_structure none)
  | addClient (d d' : Doc) (lend_date collection_day : String) :
      Reachable d → txn_add_new_client lend_date collection_day (some d) = .ok d' →
      Reachable d'
  | postEntry (d d' : Doc) (cid : String) (amt : Int) (ds st : String) :
      Reachable d → txn_add_entry cid amt ds st (some d) = .ok d' → Reachable d'
  | sweep (d d' : Doc) (today_date today_weekday : String) :
      Reachable d → batch_mark_today today_date today_weekday (some d) = .ok d' →
      Reachable d'
  | undo (d : Doc) : Reachable d → Reachable (undo_last_batch (some d))

/-- States reachable without ever invoking the undo transform. -/
inductive ReachableNoUndo : Doc → Prop
  | init : ReachableNoUndo (ensure_user_structure none)
  | addClient (d d' : Doc) (lend_date collection_day : String) :
      ReachableNoUndo d → txn_add_new_client lend_date collection_day (some d) = .ok d' →
      ReachableNoUndo d'
  | postEntry (d d' : Doc) (cid : String) (amt : Int) (ds st : String) :
      ReachableNoUndo d → txn_add_entry cid amt ds st (some d) = .ok d' →
      ReachableNoUndo d'
  | sweep (d d' : Doc) (today_date today_weekday : String) :
      ReachableNoUndo d → batch_mark_today today_date today_weekday (some d) = .ok d' →
      ReachableNoUndo d'

/-- `TotalLoans = ActiveLoans + ClosedLoans` on a stats object, reading the
fields with the code's `int(d.get(k, 0))` convention. -/
def sumSt (s : AllStats) : Prop :=
  s.TotalLoans.getD 0 = s.ActiveLoans.getD 0 + s.ClosedLoans.getD 0

theorem sumSt_close {s : AllStats} (h : sumSt s) : sumSt (closeStats s) := by
  unfold sumSt closeStats at *
  simp only [Option.getD_some]
  omega

theorem sumSt_reopen {s : AllStats} (h : sumSt s) : sumSt (reopenStats s) := by
  unfold sumSt reopenStats at *
  simp only [Option.getD_some]
  omega

theorem sumSt_getD_zero {d : Doc} (h : sumSt (d.allStats.getD emptyAllStats)) :
    sumSt (d.allStats.getD zeroAllStats) := by
  cases hs : d.allStats with
  | none =>
    show (0 : Int) = 0 + 0
    omega
  | some as => rw [hs] at h; exact h

theorem sweepLoop_sum (t w : String) :
    ∀ (cd : ClientData) (st : AllStats) res,
      sweepLoop t w st cd = .ok res → sumSt st → sumSt res.2.1 := by
  intro cd
  induction cd with
  | nil =>
    intro st res h hs
    have := Except.ok.inj h
    rw [← this]
    exact hs
  | cons p rest ih =>
    intro st res h hs
    obtain ⟨cid, node⟩ := p
    unfold sweepLoop at h
    cases hc : sweepClient t w node with
    | error e => rw [hc] at h; exact Except.noConfusion h
    | ok trip =>
      obtain ⟨n', closed, info?⟩ := trip
      rw [hc] at h
      simp only at h
      cases hloop : sweepLoop t w (if closed then closeStats st else st) rest with
      | error e => rw [hloop] at h; exact Except.noConfusion h
      | ok r =>
        rw [hloop] at h
        simp only at h
        have hr := Except.ok.inj h
        have hsum : sumSt (if closed then closeStats st else st) := by
          by_cases hcl : closed = true
          · rw [hcl, if_pos rfl]; exact sumSt_close hs
          · rw [if_neg (by simpa using hcl)]
            exact hs
        have := ih (if closed then closeStats st else st) r hloop hsum
        rw [← hr]
        exact this

theorem undoStep_stats (cid : String) (info : BatchInfo) (cd : ClientData) (st : AllStats) :
    (undoStep cid info cd st).2 = st ∨ (undoStep cid info cd st).2 = reopenStats st := by
  unfold undoStep
  repeat' split
  all_goals dsimp only
  all_goals repeat' split
  all_goals first
    | exact Or.inl rfl
    | exact Or.inr rfl

theorem undoLoop_sum : ∀ (rec : Receipt) (cd : ClientData) (st : AllStats),
    sumSt st → sumSt (undoLoop rec (cd, st)).2 := by
  intro rec
  induction rec with
  | nil => intro cd st hs; exact hs
  | cons p rest ih =>
    intro cd st hs
    obtain ⟨cid, info⟩ := p
    show sumSt (undoLoop rest (undoStep cid info cd st)).2
    have hx := undoStep_stats cid info cd st
    cases hu : undoStep cid info cd st with
    | mk cd1 st1 =>
      rw [hu] at hx
      rcases hx with h1 | h1
      · have h1' : st1 = st := h1
        rw [h1']
        exact ih cd1 st hs
      · have h1' : st1 = reopenStats st := h1
        rw [h1']
        exact ih cd1 _ (sumSt_reopen hs)

theorem txn_add_new_client_ok_stats {ld cday : String} {d d' : Doc}
    (h : txn_add_new_client ld cday (some d) = .ok d') :
    ∃ as, d.allStats = some as ∧
      d'.allStats = some ⟨some (as.TotalLoans.getD 0 + 1), some (as.ActiveLoans.getD 0 + 1),
        some (as.ClosedLoans.getD 0)⟩ := by
  cases hs : d.allStats with
  | none =>
    simp only [txn_add_new_client, hs] at h
    exact Except.noConfusion h
  | some as =>
    cases hc : d.clientData with
    | none =>
      simp only [txn_add_new_client, hs, hc] at h
      exact Except.noConfusion h
    | some cd =>
      rw [txn_add_new_client_run d as cd ld cday hs hc] at h
      refine ⟨as, rfl, ?_⟩
      rw [← Except.ok.inj h]

theorem txn_add_entry_ok_stats {cid : String} {amt : Int} {ds st : String} {d d' : Doc}
    (h : txn_add_entry cid amt ds st (some d) = .ok d') :
    ∃ as, d.allStats = some as ∧
      (d'.allStats = some as ∨ d'.allStats = some (closeStats as)) := by
  cases hs : d.allStats with
  | none =>
    simp only [txn_add_entry, hs] at h
    exact Except.noConfusion h
  | some as =>
    refine ⟨as, rfl, ?_⟩
    cases hc : d.clientData with
    | none =>
      simp only [txn_add_entry, hs, hc] at h
      exact Except.noConfusion h
    | some cd =>
      cases hn : lookupKey cid cd with
      | none =>
        simp only [txn_add_entry, hs, hc, hn] at h
        exact Except.noConfusion h
      | some node =>
        by_cases hne : node = emptyClientRecord
        · simp only [txn_add_entry, hs, hc, hn, if_pos hne] at h
          exact Except.noConfusion h
        · cases hst : node.stat with
          | none =>
            simp only [txn_add_entry, hs, hc, hn, if_neg hne, hst] at h
            exact Except.noConfusion h
          | some stat =>
            by_cases hse : stat = emptyClientStat
            · simp only [txn_add_entry, hs, hc, hn, if_neg hne, hst, if_pos hse] at h
              exact Except.noConfusion h
            · by_cases hcl : stat.Status = some "Closed"
              · simp only [txn_add_entry, hs, hc, hn, if_neg hne, hst, if_neg hse,
                  if_pos hcl] at h
                exact Except.noConfusion h
              · by_cases hcap : pyMaxD0 (weekNumsOf (node.collectionData.getD [])) + 1 > 20
                · simp only [txn_add_entry, hs, hc, hn, if_neg hne, hst, if_neg hse,
                    if_neg hcl, if_pos hcap] at h
                  exact Except.noConfusion h
                · simp only [txn_add_entry, hs, hc, hn, if_neg hne, hst, if_neg hse,
                    if_neg hcl, if_neg hcap] at h
                  have hd := Except.ok.inj h
                  rw [← hd]
                  by_cases hclo : (if st = "paid" then stat.WeeksPaid.getD 0 + 1
                      else stat.WeeksPaid.getD 0) ≥ 20
                  · right
                    simp only [if_pos hclo]
                  · left
                    simp only [if_neg hclo]

theorem ensure_some_allStats (d : Doc) :
    (ensure_user_structure (some d)).allStats = some (d.allStats.getD zeroAllStats) := rfl

theorem sumSt_doc_ensure {d : Doc} (h : sumSt (d.allStats.getD emptyAllStats)) :
    sumSt ((ensure_user_structure (some d)).allStats.getD emptyAllStats) := by
  rw [ensure_some_allStats]
  exact sumSt_getD_zero h

theorem batch_mark_today_ok_stats {t w : String} {d d' : Doc}
    (h : batch_mark_today t w (some d) = .ok d')
    (hsum : sumSt (d.allStats.getD emptyAllStats)) :
    sumSt (d'.allStats.getD emptyAllStats) := by
  unfold batch_mark_today at h
  by_cases hgate :
      containsKey t ((ensure_user_structure (some d)).batches.getD []) = true
  · rw [if_pos hgate] at h
    rw [← Except.ok.inj h]
    exact sumSt_doc_ensure hsum
  · rw [if_neg hgate] at h
    cases hloop : sweepLoop t w
        ((ensure_user_structure (some d)).allStats.getD emptyAllStats)
        ((ensure_user_structure (some d)).clientData.getD []) with
    | error e =>
      rw [hloop] at h
      exact Except.noConfusion h
    | ok r =>
      rw [hloop] at h
      simp only at h
      rw [← Except.ok.inj h]
      show sumSt ((some r.2.1).getD emptyAllStats)
      exact sweepLoop_sum t w _ _ r hloop (sumSt_doc_ensure hsum)

theorem undo_last_batch_stats {d : Doc}
    (hsum : sumSt (d.allStats.getD emptyAllStats)) :
    sumSt ((undo_last_batch (some d)).allStats.getD emptyAllStats) := by
  unfold undo_last_batch
  by_cases hb : (ensure_user_structure (some d)).batches.getD [] = []
  · rw [if_pos hb]
    exact sumSt_doc_ensure hsum
  · rw [if_neg hb]
    show sumSt ((some (undoLoop _ (_, _)).2).getD emptyAllStats)
    exact undoLoop_sum _ _ _ (sumSt_doc_ensure hsum)

/-- Claim C3: in every ledger state reachable from the empty repaired ledger
by successful `addClient`, `postEntry`, `sweepToday` and `undoLastBatch`
transforms, `TotalLoans = ActiveLoans + ClosedLoans`. -/
theorem claim_C3_stats_sum_invariant (d : Doc) (h : Reachable d) :
    (d.allStats.getD emptyAllStats).TotalLoans.getD 0 =
      (d.allStats.getD emptyAllStats).ActiveLoans.getD 0 +
      (d.allStats.getD emptyAllStats).ClosedLoans.getD 0 := by
  have main : sumSt (d.allStats.getD emptyAllStats) := by
    induction h with
    | init =>
      show (0 : Int) = 0 + 0
      omega
    | addClient d0 d' ld cday hr hok ih =>
      obtain ⟨as, hs, hs'⟩ := txn_add_new_client_ok_stats hok
      rw [hs']
      rw [hs] at ih
      simp only [Option.getD_some] at ih
      show as.TotalLoans.getD 0 + 1 = (as.ActiveLoans.getD 0 + 1) + as.ClosedLoans.getD 0
      unfold sumSt at ih
      omega
    | postEntry d0 d' cid amt ds st hr hok ih =>
      obtain ⟨as, hs, hs'⟩ := txn_add_entry_ok_stats hok
      rw [hs] at ih
      simp only [Option.getD_some] at ih
      rcases hs' with hs' | hs'
      · rw [hs']
        exact ih
      · rw [hs']
        exact sumSt_close ih
    | sweep d0 d' t w hr hok ih => exact batch_mark_today_ok_stats hok ih
    | undo d0 hr ih => exact undo_last_batch_stats ih
  exact main

theorem claim_C3_stats_sum_invariant_witness :
    ((ensure_user_structure none).allStats.getD emptyAllStats).TotalLoans.getD 0 =
      ((ensure_user_structure none).allStats.getD emptyAllStats).ActiveLoans.getD 0 +
      ((ensure_user_structure none).allStats.getD emptyAllStats).ClosedLoans.getD 0 :=
  claim_C3_stats_sum_invariant (ensure_user_structure none) Reachable.init

/-! ### Per-client invariants (C4) -/

theorem mem_upsert {k : String} {v : α} {l : List (String × α)} {p : String × α}
    (h : p ∈ upsert k v l) : p = (k, v) ∨ p ∈ l := by
  induction l with
  | nil => simpa [upsert] using h
  | cons q t ih =>
    obtain ⟨k', v'⟩ := q
    by_cases hk : k' = k
    · rw [upsert, if_pos hk] at h
      rcases List.mem_cons.mp h with h | h
      · exact Or.inl h
      · exact Or.inr (List.mem_cons_of_mem _ h)
    · rw [upsert, if_neg hk] at h
      rcases List.mem_cons.mp h with h | h
      · exact Or.inr (h ▸ List.mem_cons_self _ _)
      · rcases ih h with h | h
        · exact Or.inl h
        · exact Or.inr (List.mem_cons_of_mem _ h)

theorem lookupKey_mem {k : String} {v : α} {l : List (String × α)}
    (h : lookupKey k l = some v) : (k, v) ∈ l := by
  induction l with
  | nil => simp [lookupKey] at h
  | cons q t ih =>
    obtain ⟨k', v'⟩ := q
    simp only [lookupKey] at h
    by_cases hk : k' = k
    · rw [if_pos hk] at h
      rw [hk, Option.some_inj.mp h]
      exact List.mem_cons_self _ _
    · rw [if_neg hk] at h
      exact List.mem_cons_of_mem _ (ih h)

/-- The sweep skips a node whose stat key is missing. -/
theorem sweepClient_skip_stat_none {t w : String} {node : ClientRecord}
    (h : node.stat = none) : sweepClient t w node = .ok (node, false, none) := by
  simp only [sweepClient, h]

/-- The sweep skips an empty (Python-falsy) stat. -/
theorem sweepClient_skip_empty {t w : String} {node : ClientRecord} {stat : ClientStat}
    (hst : node.stat = some stat) (hse : stat = emptyClientStat) :
    sweepClient t w node = .ok (node, false, none) := by
  simp only [sweepClient, hst, if_pos hse]

/-- The sweep skips a `Closed` client. -/
theorem sweepClient_skip_closed {t w : String} {node : ClientRecord} {stat : ClientStat}
    (hst : node.stat = some stat) (hse : stat ≠ emptyClientStat)
    (hcl : stat.Status = some "Closed") :
    sweepClient t w node = .ok (node, false, none) := by
  have hl : pyLower (stat.Status.getD "") ≠ "active" := by
    rw [hcl]
    decide
  simp only [sweepClient, hst, if_neg hse, if_pos hl]

/-- The sweep skips a client whose collection day is not today's weekday. -/
theorem sweepClient_skip_day {t w : String} {node : ClientRecord} {stat : ClientStat}
    (hst : node.stat = some stat) (hse : stat ≠ emptyClientStat)
    (hact : stat.Status = some "Active") (hday : stat.CollectionDay ≠ some w) :
    sweepClient t w node = .ok (node, false, none) := by
  have h1 : ¬ pyLower (stat.Status.getD "") ≠ "active" := by
    rw [hact]
    decide
  simp only [sweepClient, hst, if_neg hse, if_neg h1, if_pos hday]

/-- An eligible (active, due-today) client runs the lookup-then-update-or-create
body. -/
theorem sweepClient_proceed {t w : String} {node : ClientRecord} {stat : ClientStat}
    (hst : node.stat = some stat) (hse : stat ≠ emptyClientStat)
    (hact : stat.Status = some "Active") (hday : stat.CollectionDay = some w) :
    sweepClient t w node =
      (match find_today_entry (node.collectionData.getD []) t with
       | some tk =>
         if tk = "" then .ok (sweepCreate t node stat (node.collectionData.getD []))
         else sweepUpdate tk node stat (node.collectionData.getD [])
       | none => .ok (sweepCreate t node stat (node.collectionData.getD []))) := by
  have h1 : ¬ pyLower (stat.Status.getD "") ≠ "active" := by
    rw [hact]
    decide
  have h2 : ¬ stat.CollectionDay ≠ some w := by
    rw [hday]
    exact fun h => h rfl
  simp only [sweepClient, hst, if_neg hse, if_neg h1, if_neg h2]

/-- The per-client bound invariant: the stat and its `WeeksPaid` are present,
the status is canonical, and `0 ≤ WeeksPaid ≤ 20` with `≤ 19` while active. -/
def WpInv (node : ClientRecord) : Prop :=
  ∃ stat wp, node.stat = some stat ∧ stat.WeeksPaid = some wp ∧
    (stat.Status = some "Active" ∨ stat.Status = some "Closed") ∧
    0 ≤ wp ∧ wp ≤ 20 ∧ (stat.Status = some "Active" → wp ≤ 19)

theorem sweepCreate_wpInv {t : String} {node : ClientRecord} {stat : ClientStat}
    {coll : CollData} {wp : Int}
    (hst : node.stat = some stat) (hwp : stat.WeeksPaid = some wp)
    (hact : stat.Status = some "Active") (h0 : 0 ≤ wp) (hA : wp ≤ 19) :
    WpInv (sweepCreate t node stat coll).1 := by
  unfold sweepCreate
  by_cases hcap : pyMaxD0 (weekNumsOf coll) + 1 > 20
  · rw [if_pos hcap]
    exact ⟨stat, wp, hst, hwp, Or.inl hact, h0, by omega, fun _ => hA⟩
  · by_cases hclo : stat.WeeksPaid.getD 0 + 1 ≥ 20
    · simp only [if_neg hcap, if_pos hclo]
      refine ⟨_, wp + 1, rfl, ?_, Or.inr rfl, by omega, by omega, ?_⟩
      · show some (stat.WeeksPaid.getD 0 + 1) = some (wp + 1)
        rw [hwp]
        rfl
      · intro he
        exact absurd (Option.some_inj.mp he) (by decide)
    · simp only [if_neg hcap, if_neg hclo]
      rw [hwp] at hclo
      simp only [Option.getD_some] at hclo
      refine ⟨_, wp + 1, rfl, ?_, Or.inl hact, by omega, by omega, fun _ => by omega⟩
      show some (stat.WeeksPaid.getD 0 + 1) = some (wp + 1)
      rw [hwp]
      rfl

theorem sweepUpdate_wpInv {tk : String} {node : ClientRecord} {stat : ClientStat}
    {coll : CollData} {res : ClientRecord × Bool × Option BatchInfo} {wp : Int}
    (h : sweepUpdate tk node stat coll = .ok res)
    (hst : node.stat = some stat) (hwp : stat.WeeksPaid = some wp)
    (hact : stat.Status = some "Active") (h0 : 0 ≤ wp) (hA : wp ≤ 19) :
    WpInv res.1 := by
  unfold sweepUpdate at h
  by_cases hp : pyLower (((lookupKey tk coll).getD emptyEntry).entryStatus.getD "") = "paid"
  · simp only [if_pos hp] at h
    rw [← Except.ok.inj h]
    exact ⟨stat, wp, hst, hwp, Or.inl hact, h0, by omega, fun _ => hA⟩
  · simp only [if_neg hp] at h
    cases hpar : pyIntParse (pyReplace tk "week" "") with
    | none =>
      rw [hpar] at h
      exact Except.noConfusion h
    | some n =>
      rw [hpar] at h
      simp only at h
      rw [← Except.ok.inj h]
      by_cases hclo : stat.WeeksPaid.getD 0 + 1 ≥ 20
      · simp only [if_pos hclo]
        refine ⟨_, wp + 1, rfl, ?_, Or.inr rfl, by omega, by omega, ?_⟩
        · show some (stat.WeeksPaid.getD 0 + 1) = some (wp + 1)
          rw [hwp]
          rfl
        · intro he
          exact absurd (Option.some_inj.mp he) (by decide)
      · simp only [if_neg hclo]
        rw [hwp] at hclo
        simp only [Option.getD_some] at hclo
        refine ⟨_, wp + 1, rfl, ?_, Or.inl hact, by omega, by omega, fun _ => by omega⟩
        show some (stat.WeeksPaid.getD 0 + 1) = some (wp + 1)
        rw [hwp]
        rfl

theorem sweepClient_wpInv {t w : String} {node : ClientRecord}
    {res : ClientRecord × Bool × Option BatchInfo}
    (h : sweepClient t w node = .ok res) (hinv : WpInv node) : WpInv res.1 := by
  obtain ⟨stat, wp, hst, hwp, hset, h0, h20, hA⟩ := hinv
  have hse : stat ≠ emptyClientStat := by
    intro he
    rw [he] at hwp
    cases hwp
  rcases hset with hact | hcl
  · by_cases hday : stat.CollectionDay = some w
    · rw [sweepClient_proceed hst hse hact hday] at h
      cases hf : find_today_entry (node.collectionData.getD []) t with
      | none =>
        rw [hf] at h
        simp only at h
        rw [← Except.ok.inj h]
        exact sweepCreate_wpInv hst hwp hact h0 (hA hact)
      | some tk =>
        rw [hf] at h
        simp only at h
        by_cases htk : tk = ""
        · rw [if_pos htk] at h
          rw [← Except.ok.inj h]
          exact sweepCreate_wpInv hst hwp hact h0 (hA hact)
        · rw [if_neg htk] at h
          exact sweepUpdate_wpInv h hst hwp hact h0 (hA hact)
    · rw [sweepClient_skip_day hst hse hact hday] at h
      rw [← Except.ok.inj h]
      exact ⟨stat, wp, hst, hwp, Or.inl hact, h0, h20, hA⟩
  · rw [sweepClient_skip_closed hst hse hcl] at h
    rw [← Except.ok.inj h]
    exact ⟨stat, wp, hst, hwp, Or.inr hcl, h0, h20, hA⟩

theorem undoStep_wpInv {cid : String} {info : BatchInfo} {cd : ClientData}
    {st : AllStats} (hall : ∀ p ∈ cd, WpInv p.2) :
    ∀ p ∈ (undoStep cid info cd st).1, WpInv p.2 := by
  intro p hp
  cases hn : lookupKey cid cd with
  | none =>
    simp only [undoStep, hn] at hp
    exact hall p hp
  | some node =>
    by_cases hne : node = emptyClientRecord
    · simp only [undoStep, hn, if_pos hne] at hp
      exact hall p hp
    · by_cases hck : containsKey ("week" ++ pyFormatOptInt info.week)
          (node.collectionData.getD []) = false
      · simp only [undoStep, hn, if_neg hne, if_pos hck] at hp
        exact hall p hp
      · cases hst : node.stat with
        | none =>
          simp only [undoStep, hn, if_neg hne, if_neg hck, hst] at hp
          exact hall p hp
        | some stat =>
          by_cases hse : stat = emptyClientStat
          · simp only [undoStep, hn, if_neg hne, if_neg hck, hst, if_pos hse] at hp
            exact hall p hp
          · obtain ⟨stat0, wp, hst0, hwp, hset, h0, h20, hA⟩ :=
              hall (cid, node) (lookupKey_mem hn)
            rw [hst] at hst0
            have heq : stat = stat0 := Option.some_inj.mp hst0
            subst heq
            by_cases hro : stat.Status = some "Closed"
            · by_cases hac : info.action = some "created"
              · simp only [undoStep, hn, if_neg hne, if_neg hck, hst, if_neg hse,
                  if_pos hac, if_pos hro] at hp
                rcases mem_upsert hp with hpe | hpm
                · rw [hpe]
                  refine ⟨_, max 0 (stat.WeeksPaid.getD 0 - 1), rfl, rfl, Or.inl rfl,
                    ?_, ?_, ?_⟩
                  · exact le_max_left 0 _
                  · rw [hwp]
                    simp only [Option.getD_some]
                    omega
                  · intro _
                    rw [hwp]
                    simp only [Option.getD_some]
                    omega
                · exact hall p hpm
              · by_cases hau : info.action = some "updated"
                · simp only [undoStep, hn, if_neg hne, if_neg hck, hst, if_neg hse,
                    if_neg hac, if_pos hau, if_pos hro] at hp
                  rcases mem_upsert hp with hpe | hpm
                  · rw [hpe]
                    refine ⟨_, max 0 (stat.WeeksPaid.getD 0 - 1), rfl, rfl, Or.inl rfl,
                      ?_, ?_, ?_⟩
                    · exact le_max_left 0 _
                    · rw [hwp]
                      simp only [Option.getD_some]
                      omega
                    · intro _
                      rw [hwp]
                      simp only [Option.getD_some]
                      omega
                  · exact hall p hpm
                · simp only [undoStep, hn, if_neg hne, if_neg hck, hst, if_neg hse,
                    if_neg hac, if_neg hau] at hp
                  rcases mem_upsert hp with hpe | hpm
                  · rw [hpe]
                    exact ⟨stat, wp, rfl, hwp, hset, h0, h20, hA⟩
                  · exact hall p hpm
            · have hact : stat.Status = some "Active" := by
                rcases hset with hx | hx
                · exact hx
                · exact absurd hx hro
              by_cases hac : info.action = some "created"
              · simp only [undoStep, hn, if_neg hne, if_neg hck, hst, if_neg hse,
                  if_pos hac, if_neg hro] at hp
                rcases mem_upsert hp with hpe | hpm
                · rw [hpe]
                  refine ⟨_, max 0 (stat.WeeksPaid.getD 0 - 1), rfl, rfl, Or.inl hact,
                    ?_, ?_, ?_⟩
                  · exact le_max_left 0 _
                  · rw [hwp]
                    simp only [Option.getD_some]
                    omega
                  · intro _
                    rw [hwp]
                    simp only [Option.getD_some]
                    omega
                · exact hall p hpm
              · by_cases hau : info.action = some "updated"
                · simp only [undoStep, hn, if_neg hne, if_neg hck, hst, if_neg hse,
                    if_neg hac, if_pos hau, if_neg hro] at hp
                  rcases mem_upsert hp with hpe | hpm
                  · rw [hpe]
                    refine ⟨_, max 0 (stat.WeeksPaid.getD 0 - 1), rfl, rfl, Or.inl hact,
                      ?_, ?_, ?_⟩
                    · exact le_max_left 0 _
                    · rw [hwp]
                      simp only [Option.getD_some]
                      omega
                    · intro _
                      rw [hwp]
                      simp only [Option.getD_some]
                      omega
                  · exact hall p hpm
                · simp only [undoStep, hn, if_neg hne, if_neg hck, hst, if_neg hse,
                    if_neg hac, if_neg hau] at hp
                  rcases mem_upsert hp with hpe | hpm
                  · rw [hpe]
                    exact ⟨stat, wp, rfl, hwp, hset, h0, h20, hA⟩
                  · exact hall p hpm

/-- Full inversion of a successful `txn_add_entry`. -/
theorem txn_add_entry_ok_inv {cid : String} {amt : Int} {ds st : String} {d d' : Doc}
    (h : txn_add_entry cid amt ds st (some d) = .ok d') :
    ∃ as cd node stat, d.allStats = some as ∧ d.clientData = some cd ∧
      lookupKey cid cd = some node ∧ node ≠ emptyClientRecord ∧
      node.stat = some stat ∧ stat ≠ emptyClientStat ∧ stat.Status ≠ some "Closed" ∧
      ¬ pyMaxD0 (weekNumsOf (node.collectionData.getD [])) + 1 > 20 ∧
      d' = { d with
        clientData := some (upsert cid
          { node with
            collectionData := some (upsert
              ("week" ++ toString (pyMaxD0 (weekNumsOf (node.collectionData.getD [])) + 1))
              ⟨some amt, some ds, some st⟩ (node.collectionData.getD []))
            stat := some (
              if (if st = "paid" then stat.WeeksPaid.getD 0 + 1
                  else stat.WeeksPaid.getD 0) ≥ 20 then
                { stat with
                  WeeksPaid := some (if st = "paid" then stat.WeeksPaid.getD 0 + 1
                    else stat.WeeksPaid.getD 0)
                  TotalAmountPaid := some (if st = "paid" then
                    stat.TotalAmountPaid.getD 0 + amt else stat.TotalAmountPaid.getD 0)
                  Status := some "Closed" }
              else
                { stat with
                  WeeksPaid := some (if st = "paid" then stat.WeeksPaid.getD 0 + 1
                    else stat.WeeksPaid.getD 0)
                  TotalAmountPaid := some (if st = "paid" then
                    stat.TotalAmountPaid.getD 0 + amt
                    else stat.TotalAmountPaid.getD 0) }) }
          cd)
        allStats := some (if (if st = "paid" then stat.WeeksPaid.getD 0 + 1
            else stat.WeeksPaid.getD 0) ≥ 20 then closeStats as else as) } := by
  cases hs : d.allStats with
  | none =>
    simp only [txn_add_entry, hs] at h
    exact Except.noConfusion h
  | some as =>
    cases hc : d.clientData with
    | none =>
      simp only [txn_add_entry, hs, hc] at h
      exact Except.noConfusion h
    | some cd =>
      cases hn : lookupKey cid cd with
      | none =>
        simp only [txn_add_entry, hs, hc, hn] at h
        exact Except.noConfusion h
      | some node =>
        by_cases hne : node = emptyClientRecord
        · simp only [txn_add_entry, hs, hc, hn, if_pos hne] at h
          exact Except.noConfusion h
        · cases hst : node.stat with
          | none =>
            simp only [txn_add_entry, hs, hc, hn, if_neg hne, hst] at h
            exact Except.noConfusion h
          | some stat =>
            by_cases hse : stat = emptyClientStat
            · simp only [txn_add_entry, hs, hc, hn, if_neg hne, hst, if_pos hse] at h
              exact Except.noConfusion h
            · by_cases hcl : stat.Status = some "Closed"
              · simp only [txn_add_entry, hs, hc, hn, if_neg hne, hst, if_neg hse,
                  if_pos hcl] at h
                exact Except.noConfusion h
              · by_cases hcap : pyMaxD0 (weekNumsOf (node.collectionData.getD [])) + 1 > 20
                · simp only [txn_add_entry, hs, hc, hn, if_neg hne, hst, if_neg hse,
                    if_neg hcl, if_pos hcap] at h
                  exact Except.noConfusion h
                · simp only [txn_add_entry, hs, hc, hn, if_neg hne, hst, if_neg hse,
                    if_neg hcl, if_neg hcap] at h
                  exact ⟨as, cd, node, stat, rfl, rfl, hn, hne, hst, hse, hcl, hcap,
                    (Except.ok.inj h).symm⟩

/-- Full inversion of a successful `txn_add_new_client`. -/
theorem txn_add_new_client_ok_inv {ld cday : String} {d d' : Doc}
    (h : txn_add_new_client ld cday (some d) = .ok d') :
    ∃ as cd, d.allStats = some as ∧ d.clientData = some cd ∧
      d' = { d with
        clientData := some (upsert (get_next_client_id cd)
          ⟨some ⟨some (get_next_client_id cd), some cday, some ld,
                 some "Active", some 0, some 0⟩, some []⟩ cd)
        allStats := some ⟨some (as.TotalLoans.getD 0 + 1),
                          some (as.ActiveLoans.getD 0 + 1),
                          some (as.ClosedLoans.getD 0)⟩ } := by
  cases hs : d.allStats with
  | none =>
    simp only [txn_add_new_client, hs] at h
    exact Except.noConfusion h
  | some as =>
    cases hc : d.clientData with
    | none =>
      simp only [txn_add_new_client, hs, hc] at h
      exact Except.noConfusion h
    | some cd =>
      rw [txn_add_new_client_run d as cd ld cday hs hc] at h
      exact ⟨as, cd, rfl, rfl, (Except.ok.inj h).symm⟩

/-- Generic per-node-property preservation through the sweep loop. -/
theorem sweepLoop_pres (P : ClientRecord → Prop) {t w : String}
    (hP : ∀ node res, sweepClient t w node = .ok res → P node → P res.1) :
    ∀ (cd : ClientData) (st : AllStats) res,
      sweepLoop t w st cd = .ok res → (∀ p ∈ cd, P p.2) → ∀ p ∈ res.1, P p.2 := by
  intro cd
  induction cd with
  | nil =>
    intro stx res h hall p hp
    rw [← Except.ok.inj h] at hp
    simp at hp
  | cons q rest ih =>
    intro stx res h hall p hp
    obtain ⟨cid, node⟩ := q
    unfold sweepLoop at h
    cases hcl : sweepClient t w node with
    | error e =>
      rw [hcl] at h
      exact Except.noConfusion h
    | ok trip =>
      obtain ⟨n', closed, info?⟩ := trip
      rw [hcl] at h
      simp only at h
      cases hloop : sweepLoop t w (if closed then closeStats stx else stx) rest with
      | error e =>
        rw [hloop] at h
        exact Except.noConfusion h
      | ok r =>
        rw [hloop] at h
        simp only at h
        rw [← Except.ok.inj h] at hp
        rcases List.mem_cons.mp hp with hp | hp
        · rw [hp]
          exact hP node (n', closed, info?) hcl (hall (cid, node) (List.mem_cons_self _ _))
        · exact ih _ r hloop (fun q hq => hall q (List.mem_cons_of_mem _ hq)) p hp

/-- Generic per-node-property preservation through the undo loop. -/
theorem undoLoop_pres (P : ClientRecord → Prop)
    (hP : ∀ cid info (cd : ClientData) st, (∀ p ∈ cd, P p.2) →
      ∀ p ∈ (undoStep cid info cd st).1, P p.2) :
    ∀ (rec : Receipt) (cd : ClientData) (st : AllStats),
      (∀ p ∈ cd, P p.2) → ∀ p ∈ (undoLoop rec (cd, st)).1, P p.2 := by
  intro rec
  induction rec with
  | nil => intro cd st hall p hp; exact hall p hp
  | cons q rest ih =>
    intro cd st hall p hp
    obtain ⟨cid, info⟩ := q
    show P p.2
    have hstep := hP cid info cd st hall
    cases hu : undoStep cid info cd st with
    | mk cd1 st1 =>
      rw [hu] at hstep
      have hp' : p ∈ (undoLoop rest (cd1, st1)).1 := by
        have heq : undoLoop ((cid, info) :: rest) (cd, st) = undoLoop rest (cd1, st1) := by
          show undoLoop rest (undoStep cid info cd st) = undoLoop rest (cd1, st1)
          rw [hu]
        rw [heq] at hp
        exact hp
      exact ih cd1 st1 hstep p hp'

/-- The per-client density invariant: `collectionData` is present and its
keys are exactly `week1..weekN` in order. -/
def DenseInv (node : ClientRecord) : Prop :=
  ∃ coll, node.collectionData = some coll ∧ denseWeeks coll

theorem find_today_entry_mem {coll : CollData} {t k : String}
    (h : find_today_entry coll t = some k) : k ∈ keysOf coll := by
  induction coll with
  | nil => cases h
  | cons q rest ih =>
    obtain ⟨k', e⟩ := q
    simp only [find_today_entry] at h
    by_cases hd : e.date = some t
    · rw [if_pos hd] at h
      rw [keysOf_cons]
      exact (Option.some_inj.mp h) ▸ List.mem_cons_self _ _
    · rw [if_neg hd] at h
      exact List.mem_cons_of_mem _ (ih h)

theorem sweepCreate_denseInv {t : String} {node : ClientRecord} {stat : ClientStat}
    {coll : CollData} (hcoll : node.collectionData = some coll)
    (hdense : denseWeeks coll) : DenseInv (sweepCreate t node stat coll).1 := by
  unfold sweepCreate
  by_cases hcap : pyMaxD0 (weekNumsOf coll) + 1 > 20
  · rw [if_pos hcap]
    exact ⟨coll, hcoll, hdense⟩
  · simp only [if_neg hcap]
    have hkey : "week" ++ toString (pyMaxD0 (weekNumsOf coll) + 1)
        = weekKey (coll.length + 1) := by
      rw [next_week_dense hdense]
      rfl
    refine ⟨_, rfl, ?_⟩
    rw [hkey, upsert_eq_append (weekKey_succ_not_mem hdense)]
    exact denseWeeks_append hdense _

theorem sweepUpdate_denseInv {tk : String} {node : ClientRecord} {stat : ClientStat}
    {coll : CollData} {res : ClientRecord × Bool × Option BatchInfo}
    (h : sweepUpdate tk node stat coll = .ok res)
    (hcoll : node.collectionData = some coll) (hdense : denseWeeks coll)
    (htk : tk ∈ keysOf coll) : DenseInv res.1 := by
  unfold sweepUpdate at h
  by_cases hp : pyLower (((lookupKey tk coll).getD emptyEntry).entryStatus.getD "") = "paid"
  · simp only [if_pos hp] at h
    rw [← Except.ok.inj h]
    exact ⟨coll, hcoll, hdense⟩
  · simp only [if_neg hp] at h
    cases hpar : pyIntParse (pyReplace tk "week" "") with
    | none =>
      rw [hpar] at h
      exact Except.noConfusion h
    | some n =>
      rw [hpar] at h
      simp only at h
      rw [← Except.ok.inj h]
      exact ⟨_, rfl, denseWeeks_upsert_mem hdense htk⟩

theorem sweepClient_denseInv {t w : String} {node : ClientRecord}
    {res : ClientRecord × Bool × Option BatchInfo}
    (h : sweepClient t w node = .ok res) (hinv : DenseInv node) : DenseInv res.1 := by
  obtain ⟨coll, hcoll, hdense⟩ := hinv
  cases hst : node.stat with
  | none =>
    rw [sweepClient_skip_stat_none hst] at h
    rw [← Except.ok.inj h]
    exact ⟨coll, hcoll, hdense⟩
  | some stat =>
    by_cases hse : stat = emptyClientStat
    · rw [sweepClient_skip_empty hst hse] at h
      rw [← Except.ok.inj h]
      exact ⟨coll, hcoll, hdense⟩
    · by_cases hact : pyLower (stat.Status.getD "") ≠ "active"
      · have : sweepClient t w node = .ok (node, false, none) := by
          simp only [sweepClient, hst, if_neg hse, if_pos hact]
        rw [this] at h
        rw [← Except.ok.inj h]
        exact ⟨coll, hcoll, hdense⟩
      · by_cases hday : stat.CollectionDay ≠ some w
        · have : sweepClient t w node = .ok (node, false, none) := by
            simp only [sweepClient, hst, if_neg hse, if_neg hact, if_pos hday]
          rw [this] at h
          rw [← Except.ok.inj h]
          exact ⟨coll, hcoll, hdense⟩
        · have hrun : sweepClient t w node =
              (match find_today_entry (node.collectionData.getD []) t with
               | some tk =>
                 if tk = "" then .ok (sweepCreate t node stat (node.collectionData.getD []))
                 else sweepUpdate tk node stat (node.collectionData.getD [])
               | none => .ok (sweepCreate t node stat (node.collectionData.getD []))) := by
            simp only [sweepClient, hst, if_neg hse, if_neg hact, if_neg hday]
          rw [hrun] at h
          have hg : node.collectionData.getD [] = coll := by rw [hcoll]; rfl
          rw [hg] at h
          cases hf : find_today_entry coll t with
          | none =>
            rw [hf] at h
            simp only at h
            rw [← Except.ok.inj h]
            exact sweepCreate_denseInv hcoll hdense
          | some tk =>
            rw [hf] at h
            simp only at h
            by_cases htk : tk = ""
            · rw [if_pos htk] at h
              rw [← Except.ok.inj h]
              exact sweepCreate_denseInv hcoll hdense
            · rw [if_neg htk] at h
              exact sweepUpdate_denseInv h hcoll hdense (find_today_entry_mem hf)

/-- Generic per-node preservation at the whole-sweep level. -/
theorem batch_mark_today_pres (P : ClientRecord → Prop) {t w : String} {d d' : Doc}
    (hP : ∀ node res, sweepClient t w node = .ok res → P node → P res.1)
    (h : batch_mark_today t w (some d) = .ok d')
    (hall : ∀ p ∈ (d.clientData.getD []), P p.2) :
    ∀ p ∈ (d'.clientData.getD []), P p.2 := by
  unfold batch_mark_today at h
  by_cases hgate : containsKey t ((ensure_user_structure (some d)).batches.getD []) = true
  · rw [if_pos hgate] at h
    rw [← Except.ok.inj h]
    exact hall
  · rw [if_neg hgate] at h
    cases hloop : sweepLoop t w
        ((ensure_user_structure (some d)).allStats.getD emptyAllStats)
        ((ensure_user_structure (some d)).clientData.getD []) with
    | error e =>
      rw [hloop] at h
      exact Except.noConfusion h
    | ok r =>
      rw [hloop] at h
      simp only at h
      rw [← Except.ok.inj h]
      exact sweepLoop_pres P hP _ _ r hloop hall

/-- Generic per-node preservation at the whole-undo level. -/
theorem undo_last_batch_pres (P : ClientRecord → Prop)
    (hP : ∀ cid info (cd : ClientData) st, (∀ p ∈ cd, P p.2) →
      ∀ p ∈ (undoStep cid info cd st).1, P p.2) {d : Doc}
    (hall : ∀ p ∈ (d.clientData.getD []), P p.2) :
    ∀ p ∈ ((undo_last_batch (some d)).clientData.getD []), P p.2 := by
  unfold undo_last_batch
  by_cases hb : (ensure_user_structure (some d)).batches.getD [] = []
  · rw [if_pos hb]
    exact hall
  · rw [if_neg hb]
    intro p hp
    exact undoLoop_pres P hP _ _ _ hall p hp

/-- A successful `txn_add_entry` keeps every client inside the `WeeksPaid`
bounds. -/
theorem txn_add_entry_wpInv {cid : String} {amt : Int} {ds st : String} {d d' : Doc}
    (h : txn_add_entry cid amt ds st (some d) = .ok d')
    (hall : ∀ p ∈ (d.clientData.getD []), WpInv p.2) :
    ∀ p ∈ (d'.clientData.getD []), WpInv p.2 := by
  obtain ⟨as, cd, node, stat, hs, hc, hn, hne, hst, hse, hcl, hcap, hd'⟩ :=
    txn_add_entry_ok_inv h
  have hcd : d.clientData.getD [] = cd := by rw [hc]; rfl
  rw [hd']
  intro p hp
  rcases mem_upsert hp with hpe | hpm
  · obtain ⟨stat0, wp, hst0, hwp, hset, h0, h20, hA⟩ :=
      hall (cid, node) (by rw [hcd]; exact lookupKey_mem hn)
    rw [hst] at hst0
    have heq : stat = stat0 := Option.some_inj.mp hst0
    subst heq
    have hact : stat.Status = some "Active" := by
      rcases hset with ha | ha
      · exact ha
      · exact absurd ha hcl
    rw [hpe]
    by_cases hpd : st = "paid"
    · simp only [if_pos hpd]
      rw [hwp]
      simp only [Option.getD_some]
      by_cases hclo : wp + 1 ≥ 20
      · rw [if_pos hclo]
        refine ⟨_, wp + 1, rfl, rfl, Or.inr rfl, by omega, ?_, ?_⟩
        · have := hA hact
          omega
        · intro he
          exact absurd (Option.some_inj.mp he) (by decide)
      · rw [if_neg hclo]
        exact ⟨_, wp + 1, rfl, rfl, Or.inl hact, by omega, by omega, fun _ => by omega⟩
    · simp only [if_neg hpd]
      rw [hwp]
      simp only [Option.getD_some]
      have hclo : ¬ wp ≥ 20 := by
        have := hA hact
        omega
      rw [if_neg hclo]
      exact ⟨_, wp, rfl, rfl, Or.inl hact, h0, h20, fun _ => hA hact⟩
  · exact hall p (by rw [hcd]; exact hpm)

/-- A successful `txn_add_new_client` keeps every client inside the
`WeeksPaid` bounds (the fresh client starts at 0). -/
theorem txn_add_new_client_wpInv {ld cday : String} {d d' : Doc}
    (h : txn_add_new_client ld cday (some d) = .ok d')
    (hall : ∀ p ∈ (d.clientData.getD []), WpInv p.2) :
    ∀ p ∈ (d'.clientData.getD []), WpInv p.2 := by
  obtain ⟨as, cd, hs, hc, hd'⟩ := txn_add_new_client_ok_inv h
  have hcd : d.clientData.getD [] = cd := by rw [hc]; rfl
  rw [hd']
  intro p hp
  rcases mem_upsert hp with hpe | hpm
  · rw [hpe]
    exact ⟨_, 0, rfl, rfl, Or.inl rfl, by omega, by omega, fun _ => by omega⟩
  · exact hall p (by rw [hcd]; exact hpm)

/-- Every reachable state satisfies the per-client `WeeksPaid` bounds. -/
theorem reachable_wpInv {d : Doc} (h : Reachable d) :
    ∀ p ∈ (d.clientData.getD []), WpInv p.2 := by
  induction h with
  | init =>
    intro p hp
    exact absurd hp (List.not_mem_nil p)
  | addClient d0 d' ld cday hr hok ih => exact txn_add_new_client_wpInv hok ih
  | postEntry d0 d' cid amt ds st hr hok ih => exact txn_add_entry_wpInv hok ih
  | sweep d0 d' t w hr hok ih =>
    exact batch_mark_today_pres WpInv
      (fun node res hcl hi => sweepClient_wpInv hcl hi) hok ih
  | undo d0 hr ih =>
    exact undo_last_batch_pres WpInv
      (fun cid info cd st hcd => undoStep_wpInv hcd) ih

/-- A successful `txn_add_entry` keeps every client's week range dense: the
new entry goes at week `len + 1`. -/
theorem txn_add_entry_denseInv {cid : String} {amt : Int} {ds st : String} {d d' : Doc}
    (h : txn_add_entry cid amt ds st (some d) = .ok d')
    (hall : ∀ p ∈ (d.clientData.getD []), DenseInv p.2) :
    ∀ p ∈ (d'.clientData.getD []), DenseInv p.2 := by
  obtain ⟨as, cd, node, stat, hs, hc, hn, hne, hst, hse, hcl, hcap, hd'⟩ :=
    txn_add_entry_ok_inv h
  have hcd : d.clientData.getD [] = cd := by rw [hc]; rfl
  rw [hd']
  intro p hp
  rcases mem_upsert hp with hpe | hpm
  · obtain ⟨coll, hcoll, hdense⟩ := hall (cid, node) (by rw [hcd]; exact lookupKey_mem hn)
    have hg : node.collectionData.getD [] = coll := by rw [hcoll]; rfl
    rw [hpe]
    refine ⟨_, rfl, ?_⟩
    rw [hg]
    have hkey : "week" ++ toString (pyMaxD0 (weekNumsOf coll) + 1)
        = weekKey (coll.length + 1) := by
      rw [next_week_dense hdense]
      rfl
    rw [hkey, upsert_eq_append (weekKey_succ_not_mem hdense)]
    exact denseWeeks_append hdense _
  · exact hall p (by rw [hcd]; exact hpm)

/-- A successful `txn_add_new_client` keeps every client's week range dense
(the fresh client has an empty `collectionData`). -/
theorem txn_add_new_client_denseInv {ld cday : String} {d d' : Doc}
    (h : txn_add_new_client ld cday (some d) = .ok d')
    (hall : ∀ p ∈ (d.clientData.getD []), DenseInv p.2) :
    ∀ p ∈ (d'.clientData.getD []), DenseInv p.2 := by
  obtain ⟨as, cd, hs, hc, hd'⟩ := txn_add_new_client_ok_inv h
  have hcd : d.clientData.getD [] = cd := by rw [hc]; rfl
  rw [hd']
  intro p hp
  rcases mem_upsert hp with hpe | hpm
  · rw [hpe]
    exact ⟨[], rfl, denseWeeks_nil⟩
  · exact hall p (by rw [hcd]; exact hpm)

/-- Every state reachable without undo satisfies the per-client week-range
density. -/
theorem reachableNoUndo_denseInv {d : Doc} (h : ReachableNoUndo d) :
    ∀ p ∈ (d.clientData.getD []), DenseInv p.2 := by
  induction h with
  | init =>
    intro p hp
    exact absurd hp (List.not_mem_nil p)
  | addClient d0 d' ld cday hr hok ih => exact txn_add_new_client_denseInv hok ih
  | postEntry d0 d' cid amt ds st hr hok ih => exact txn_add_entry_denseInv hok ih
  | sweep d0 d' t w hr hok ih =>
    exact batch_mark_today_pres DenseInv
      (fun node res hcl hi => sweepClient_denseInv hcl hi) hok ih

/-- The client record created by `addClient "2024-01-01" "MON"` on the empty
repaired ledger. -/
def c4node : ClientRecord :=
  ⟨some ⟨some "P1", some "MON", some "2024-01-01", some "Active", some 0, some 0⟩,
   some []⟩

def c4d1 : Doc := ⟨some ⟨some 1, some 1, some 0⟩, some [("P1", c4node)], none, true⟩

/-- `c4d1` after the sweep of Monday 2024-01-08 creates `week1`. -/
def c4d2 : Doc :=
  ⟨some ⟨some 1, some 1, some 0⟩,
   some [("P1",
     ⟨some ⟨some "P1", some "MON", some "2024-01-01", some "Active", some 600, some 1⟩,
      some [("week1", ⟨some 600, some "2024-01-08", some "paid"⟩)]⟩)],
   some [("2024-01-08", [("P1", ⟨some "created", some 1⟩)])],
   true⟩

/-- `c4d2` after `postEntry "P1" 600 "2024-01-09" "paid"` appends `week2`. -/
def c4d3 : Doc :=
  ⟨some ⟨some 1, some 1, some 0⟩,
   some [("P1",
     ⟨some ⟨some "P1", some "MON", some "2024-01-01", some "Active", some 1200, some 2⟩,
      some [("week1", ⟨some 600, some "2024-01-08", some "paid"⟩),
            ("week2", ⟨some 600, some "2024-01-09", some "paid"⟩)]⟩)],
   some [("2024-01-08", [("P1", ⟨some "created", some 1⟩)])],
   true⟩

/-- `c4d3` after `undoLastBatch`: the sweep's receipt deletes `week1`, leaving
the gap `["week2"]`. -/
def c4gapNode : ClientRecord :=
  ⟨some ⟨some "P1", some "MON", some "2024-01-01", some "Active", some 600, some 1⟩,
   some [("week2", ⟨some 600, some "2024-01-09", some "paid"⟩)]⟩

def c4gap : Doc :=
  ⟨some ⟨some 1, some 1, some 0⟩, some [("P1", c4gapNode)], some [], true⟩

/-- Claim C4 (amended): in every reachable ledger state every client record
has its stat and `WeeksPaid` present with `0 ≤ WeeksPaid ≤ 20`; and in every
state reachable without `undoLastBatch`, every client's `collectionData` keys
are exactly `week1..weekN` in order, `N` its length.  (The original claim
asserted density for all reachable states; an undo that follows an
intervening `postEntry` to a swept client deletes an interior week and
breaks density — see the counterexample.) -/
theorem claim_C4_wp_bounds_and_dense_weeks (d : Doc) :
    (Reachable d → ∀ cid node, lookupKey cid (d.clientData.getD []) = some node →
      ∃ stat wp, node.stat = some stat ∧ stat.WeeksPaid = some wp ∧
        0 ≤ wp ∧ wp ≤ 20) ∧
    (ReachableNoUndo d → ∀ cid node, lookupKey cid (d.clientData.getD []) = some node →
      ∃ coll, node.collectionData = some coll ∧
        keysOf coll = weekKeys coll.length) := by
  constructor
  · intro h cid node hn
    obtain ⟨stat, wp, hst, hwp, _, h0, h20, _⟩ :=
      reachable_wpInv h (cid, node) (lookupKey_mem hn)
    exact ⟨stat, wp, hst, hwp, h0, h20⟩
  · intro h cid node hn
    exact reachableNoUndo_denseInv h (cid, node) (lookupKey_mem hn)

/-- Claim C4, counterexample to the original density claim: after
`addClient`, sweep (creates `week1`), `postEntry` (appends `week2`), and
`undoLastBatch` (deletes `week1`), client `P1` is reachable with
`collectionData` keys `["week2"]`, not a dense `week1..weekN` range. -/
theorem claim_C4_dense_weeks_counterexample :
    ∃ d, Reachable d ∧ ∃ cid node,
      lookupKey cid (d.clientData.getD []) = some node ∧
      ¬ ∃ coll, node.collectionData = some coll ∧
        keysOf coll = weekKeys coll.length := by
  refine ⟨c4gap, ?_, "P1", c4gapNode, rfl, ?_⟩
  · have h1 : Reachable c4d1 :=
      Reachable.addClient _ c4d1 "2024-01-01" "MON" Reachable.init rfl
    have h2 : Reachable c4d2 :=
      Reachable.sweep c4d1 c4d2 "2024-01-08" "MON" h1 rfl
    have h3 : Reachable c4d3 :=
      Reachable.postEntry c4d2 c4d3 "P1" 600 "2024-01-09" "paid" h2 rfl
    have h4 := Reachable.undo c4d3 h3
    have he : undo_last_batch (some c4d3) = c4gap := rfl
    rw [he] at h4
    exact h4
  · rintro ⟨coll, hc, hk⟩
    have hce : coll = [("week2", (⟨some 600, some "2024-01-09", some "paid"⟩ : Entry))] :=
      Option.some_inj.mp (hc.symm.trans rfl)
    subst hce
    exact absurd hk (by decide)

/-- Witness for C4 at the one-client ledger `c4d1`. -/
theorem claim_C4_wp_bounds_and_dense_weeks_witness :
    (∃ stat wp, c4node.stat = some stat ∧ stat.WeeksPaid = some wp ∧
      0 ≤ wp ∧ wp ≤ 20) ∧
    (∃ coll, c4node.collectionData = some coll ∧
      keysOf coll = weekKeys coll.length) := by
  have h := claim_C4_wp_bounds_and_dense_weeks c4d1
  have hr : Reachable c4d1 :=
    Reachable.addClient _ c4d1 "2024-01-01" "MON" Reachable.init rfl
  have hru : ReachableNoUndo c4d1 :=
    ReachableNoUndo.addClient _ c4d1 "2024-01-01" "MON" ReachableNoUndo.init rfl
  exact ⟨h.1 hr "P1" c4node rfl, h.2 hru "P1" c4node rfl⟩

/-- Claim C2 (amended): for an active client due today whose `collectionData`
has its FIRST entry dated today still pending, the sweep flips that entry to
`paid`, increments `WeeksPaid` by 1, credits `TotalAmountPaid` by the FIXED
installment 600 — not by the entry's own `Amount` field, contrary to the
original claim — and records `{action: "updated", week: n}` with `n` parsed
from the entry key.  (The entry acted on is the first one dated today, and
the credit is 600 regardless of `Amount`; see the counterexample.) -/
theorem claim_C2_sweep_updates_today_entry {t w tk : String} {node : ClientRecord}
    {stat : ClientStat} {coll : CollData} {entry : Entry} {n : Int}
    (hst : node.stat = some stat) (hse : stat ≠ emptyClientStat)
    (hact : stat.Status = some "Active") (hday : stat.CollectionDay = some w)
    (hcoll : node.collectionData = some coll)
    (hf : find_today_entry coll t = some tk) (htk : tk ≠ "")
    (hlk : lookupKey tk coll = some entry)
    (hpend : entry.entryStatus = some "pending")
    (hpar : pyIntParse (pyReplace tk "week" "") = some n) :
    sweepClient t w node = .ok
      ({ node with
          collectionData := some (upsert tk { entry with entryStatus := some "paid" } coll)
          stat := some (
            if stat.WeeksPaid.getD 0 + 1 ≥ 20 then
              { stat with
                WeeksPaid := some (stat.WeeksPaid.getD 0 + 1)
                TotalAmountPaid := some (stat.TotalAmountPaid.getD 0 + 600)
                Status := some "Closed" }
            else
              { stat with
                WeeksPaid := some (stat.WeeksPaid.getD 0 + 1)
                TotalAmountPaid := some (stat.TotalAmountPaid.getD 0 + 600) }) },
        decide (stat.WeeksPaid.getD 0 + 1 ≥ 20),
        some ⟨some "updated", some n⟩) := by
  rw [sweepClient_proceed hst hse hact hday]
  have hg : node.collectionData.getD [] = coll := by rw [hcoll]; rfl
  rw [hg, hf]
  simp only
  rw [if_neg htk]
  have hnp : ¬ pyLower (entry.entryStatus.getD "") = "paid" := by
    rw [hpend]
    decide
  simp only [sweepUpdate, hlk, Option.getD_some, hpar, if_neg hnp]

/-- A pending entry dated today whose `Amount` is 500, not the standard 600
installment. -/
def c2entry : Entry := ⟨some 500, some "2024-01-08", some "pending"⟩

def c2stat : ClientStat :=
  ⟨some "P1", some "MON", some "2024-01-01", some "Active", some 0, some 3⟩

def c2node : ClientRecord := ⟨some c2stat, some [("week1", c2entry)]⟩

/-- The sweep's actual result on `c2node`: it credits 600, not the entry's
500. -/
def c2stat2 : ClientStat :=
  ⟨some "P1", some "MON", some "2024-01-01", some "Active", some 600, some 4⟩

def c2res : ClientRecord × Bool × Option BatchInfo :=
  (⟨some c2stat2, some [("week1", ⟨some 500, some "2024-01-08", some "paid"⟩)]⟩, false,
   some ⟨some "updated", some 1⟩)

/-- Claim C2, counterexample to the original wording: on a pending entry with
`Amount = 500` and `TotalAmountPaid = 0`, the sweep leaves
`TotalAmountPaid = 600`, not `0 + 500` as "increases TotalAmountPaid by that
entry's Amount field" requires. -/
theorem claim_C2_amount_counterexample :
    sweepClient "2024-01-08" "MON" c2node = .ok c2res ∧
    c2entry.entryStatus = some "pending" ∧ c2entry.date = some "2024-01-08" ∧
    c2stat.TotalAmountPaid = some 0 ∧ c2entry.Amount = some 500 ∧
    (∃ stat, c2res.1.stat = some stat ∧ stat.TotalAmountPaid = some 600) ∧
    ¬ ∃ stat, c2res.1.stat = some stat ∧
      stat.TotalAmountPaid = some (c2stat.TotalAmountPaid.getD 0 + c2entry.Amount.getD 0) := by
  refine ⟨rfl, rfl, rfl, rfl, rfl, ⟨c2stat2, rfl, rfl⟩, ?_⟩
  rintro ⟨stat, h1, h2⟩
  have he : stat = c2stat2 := Option.some_inj.mp (h1.symm.trans rfl)
  subst he
  exact absurd h2 (by decide)

/-- Witness for C2 at the concrete client `c2node`. -/
theorem claim_C2_sweep_updates_today_entry_witness :
    sweepClient "2024-01-08" "MON" c2node = .ok c2res := by
  have h := @claim_C2_sweep_updates_today_entry "2024-01-08" "MON" "week1" c2node c2stat
    [("week1", c2entry)] c2entry 1 rfl (by decide) rfl rfl rfl rfl (by decide) rfl rfl rfl
  rw [h]
  rfl

/-! ### C1: the sweep/undo round trip -/

theorem ensure_id {d : Doc} (hs : d.allStats.isSome) (hc : d.clientData.isSome)
    (hl : d.lastBatch = true) : ensure_user_structure (some d) = d := by
  obtain ⟨as0, cd0, bs0, lb0⟩ := d
  rcases Option.isSome_iff_exists.mp hs with ⟨as, has⟩
  rcases Option.isSome_iff_exists.mp hc with ⟨cd, hcd⟩
  cases has
  cases hcd
  cases hl
  rfl

/-- The stats fields the undo must restore are present. -/
def StWF (st : AllStats) : Prop := st.ActiveLoans.isSome ∧ st.ClosedLoans.isSome

theorem stWF_close {st : AllStats} : StWF (closeStats st) := ⟨rfl, rfl⟩

theorem reopen_close {st : AllStats} (h : StWF st) :
    reopenStats (closeStats st) = st := by
  obtain ⟨tl, al, cl⟩ := st
  rcases Option.isSome_iff_exists.mp h.1 with ⟨a, ha⟩
  rcases Option.isSome_iff_exists.mp h.2 with ⟨b, hb⟩
  cases ha
  cases hb
  show AllStats.mk tl (some ((a - 1) + 1)) (some ((b + 1) - 1)) = AllStats.mk tl (some a) (some b)
  have h1 : (a - 1 : Int) + 1 = a := by omega
  have h2 : (b + 1 : Int) - 1 = b := by omega
  rw [h1, h2]

theorem lookupKey_of_mem_keys {k : String} {l : List (String × α)}
    (h : k ∈ keysOf l) : ∃ v, lookupKey k l = some v := by
  induction l with
  | nil => exact absurd h (List.not_mem_nil k)
  | cons p rest ih =>
    obtain ⟨k0, v0⟩ := p
    by_cases hk : k0 = k
    · exact ⟨v0, by simp only [lookupKey, if_pos hk]⟩
    · have hm : k ∈ keysOf rest := by
        rw [keysOf_cons] at h
        rcases List.mem_cons.mp h with he | hm
        · exact absurd he.symm hk
        · exact hm
      rcases ih hm with ⟨v, hv⟩
      exact ⟨v, by simp only [lookupKey, if_neg hk]; exact hv⟩

/-- A sweep step that leaves no receipt entry did not touch the client. -/
theorem sweepClient_none_info {t w : String} {node n' : ClientRecord} {c : Bool}
    (h : sweepClient t w node = .ok (n', c, none)) : n' = node ∧ c = false := by
  cases hst : node.stat with
  | none =>
    rw [sweepClient_skip_stat_none hst] at h
    have he := Except.ok.inj h
    rw [Prod.mk.injEq, Prod.mk.injEq] at he
    exact ⟨he.1.symm, he.2.1.symm⟩
  | some stat =>
    by_cases hse : stat = emptyClientStat
    · rw [sweepClient_skip_empty hst hse] at h
      have he := Except.ok.inj h
      rw [Prod.mk.injEq, Prod.mk.injEq] at he
      exact ⟨he.1.symm, he.2.1.symm⟩
    · by_cases hact : pyLower (stat.Status.getD "") ≠ "active"
      · have hrun : sweepClient t w node = .ok (node, false, none) := by
          simp only [sweepClient, hst, if_neg hse, if_pos hact]
        rw [hrun] at h
        have he := Except.ok.inj h
        rw [Prod.mk.injEq, Prod.mk.injEq] at he
        exact ⟨he.1.symm, he.2.1.symm⟩
      · by_cases hday : stat.CollectionDay ≠ some w
        · have hrun : sweepClient t w node = .ok (node, false, none) := by
            simp only [sweepClient, hst, if_neg hse, if_neg hact, if_pos hday]
          rw [hrun] at h
          have he := Except.ok.inj h
          rw [Prod.mk.injEq, Prod.mk.injEq] at he
          exact ⟨he.1.symm, he.2.1.symm⟩
        · have hrun : sweepClient t w node =
              (match find_today_entry (node.collectionData.getD []) t with
               | some tk =>
                 if tk = "" then .ok (sweepCreate t node stat (node.collectionData.getD []))
                 else sweepUpdate tk node stat (node.collectionData.getD [])
               | none => .ok (sweepCreate t node stat (node.collectionData.getD []))) := by
            simp only [sweepClient, hst, if_neg hse, if_neg hact, if_neg hday]
          rw [hrun] at h
          have hcr : ∀ (st0 : ClientStat),
              .ok (sweepCreate t node st0 (node.collectionData.getD [])) =
                (Except.ok (n', c, none) : Except String (ClientRecord × Bool × Option BatchInfo)) →
              n' = node ∧ c = false := by
            intro st0 hcc
            unfold sweepCreate at hcc
            by_cases hcap : pyMaxD0 (weekNumsOf (node.collectionData.getD [])) + 1 > 20
            · rw [if_pos hcap] at hcc
              have he := Except.ok.inj hcc
              rw [Prod.mk.injEq, Prod.mk.injEq] at he
              exact ⟨he.1.symm, he.2.1.symm⟩
            · simp only [if_neg hcap] at hcc
              have he := Except.ok.inj hcc
              rw [Prod.mk.injEq, Prod.mk.injEq] at he
              exact absurd he.2.2 (by simp)
          cases hf : find_today_entry (node.collectionData.getD []) t with
          | none =>
            rw [hf] at h
            simp only at h
            exact hcr stat h
          | some tk =>
            rw [hf] at h
            simp only at h
            by_cases htk : tk = ""
            · rw [if_pos htk] at h
              exact hcr stat h
            · rw [if_neg htk] at h
              unfold sweepUpdate at h
              by_cases hp : pyLower ((((lookupKey tk (node.collectionData.getD []))).getD emptyEntry).entryStatus.getD "") = "paid"
              · simp only [if_pos hp] at h
                have he := Except.ok.inj h
                rw [Prod.mk.injEq, Prod.mk.injEq] at he
                exact ⟨he.1.symm, he.2.1.symm⟩
              · simp only [if_neg hp] at h
                cases hpar : pyIntParse (pyReplace tk "week" "") with
                | none =>
                  rw [hpar] at h
                  exact Except.noConfusion h
                | some n =>
                  rw [hpar] at h
                  simp only at h
                  have he := Except.ok.inj h
                  rw [Prod.mk.injEq, Prod.mk.injEq] at he
                  exact absurd he.2.2 (by simp)

/-- Receipt entries name only clients of the swept snapshot. -/
theorem sweepLoop_receipt_keys {t w : String} : ∀ (cd : ClientData) (st : AllStats) res,
    sweepLoop t w st cd = .ok res → ∀ q ∈ res.2.2, q.1 ∈ keysOf cd := by
  intro cd
  induction cd with
  | nil =>
    intro stx res h q hq
    rw [← Except.ok.inj h] at hq
    exact absurd hq (List.not_mem_nil q)
  | cons p rest ih =>
    intro stx res h q hq
    obtain ⟨cid, node⟩ := p
    unfold sweepLoop at h
    cases hcl : sweepClient t w node with
    | error e =>
      rw [hcl] at h
      exact Except.noConfusion h
    | ok trip =>
      obtain ⟨nn, closed, info?⟩ := trip
      rw [hcl] at h
      simp only at h
      cases hloop : sweepLoop t w (if closed then closeStats stx else stx) rest with
      | error e =>
        rw [hloop] at h
        exact Except.noConfusion h
      | ok r =>
        rw [hloop] at h
        simp only at h
        rw [← Except.ok.inj h] at hq
        rw [keysOf_cons]
        cases info? with
        | none =>
          exact List.mem_cons_of_mem _ (ih _ r hloop q hq)
        | some i =>
          rcases List.mem_cons.mp hq with he | hm
          · rw [he]
            exact List.mem_cons_self _ _
          · exact List.mem_cons_of_mem _ (ih _ r hloop q hm)

/-- The undo step leaves an untouched head client in place. -/
theorem undoStep_cons_ne {cid c : String} {info : BatchInfo} {n : ClientRecord}
    {cd : ClientData} {st : AllStats} (h : c ≠ cid) :
    undoStep cid info ((c, n) :: cd) st =
      ((c, n) :: (undoStep cid info cd st).1, (undoStep cid info cd st).2) := by
  simp only [undoStep, lookupKey, if_neg h]
  cases hl : lookupKey cid cd with
  | none => rfl
  | some node =>
    simp only
    repeat' split
    all_goals dsimp only
    all_goals simp only [upsert, if_neg h]

theorem undoLoop_cons_ne {c : String} {n : ClientRecord} :
    ∀ (rec : Receipt) (cd : ClientData) (st : AllStats),
      (∀ q ∈ rec, q.1 ≠ c) →
      undoLoop rec ((c, n) :: cd, st) =
        ((c, n) :: (undoLoop rec (cd, st)).1, (undoLoop rec (cd, st)).2) := by
  intro rec
  induction rec with
  | nil => intro cd st hne; rfl
  | cons q r ih =>
    intro cd st hne
    obtain ⟨cid, i⟩ := q
    have hc : c ≠ cid := fun he => hne (cid, i) (List.mem_cons_self _ _) he.symm
    cases hu : undoStep cid i cd st with
    | mk cd1 st1 =>
      have h1 : undoLoop ((cid, i) :: r) ((c, n) :: cd, st) = undoLoop r ((c, n) :: cd1, st1) := by
        show undoLoop r (undoStep cid i ((c, n) :: cd) st) = _
        rw [undoStep_cons_ne hc, hu]
      have h2 : undoLoop ((cid, i) :: r) (cd, st) = undoLoop r (cd1, st1) := by
        show undoLoop r (undoStep cid i cd st) = _
        rw [hu]
      rw [h1, h2]
      exact ih cd1 st1 (fun p hp => hne p (List.mem_cons_of_mem _ hp))

/-- The undo step's stats adjustment commutes with a pending `reopenStats`
shift: which branch runs depends only on the client data. -/
theorem undoStep_stats_comm {cid : String} {info : BatchInfo} {cd : ClientData}
    {st : AllStats} :
    undoStep cid info cd (reopenStats st) =
      ((undoStep cid info cd st).1, reopenStats (undoStep cid info cd st).2) := by
  unfold undoStep
  repeat' split
  all_goals dsimp only
  all_goals repeat' split
  all_goals rfl

theorem undoLoop_stats_comm : ∀ (rec : Receipt) (cd : ClientData) (st : AllStats),
    undoLoop rec (cd, reopenStats st) =
      ((undoLoop rec (cd, st)).1, reopenStats (undoLoop rec (cd, st)).2) := by
  intro rec
  induction rec with
  | nil => intro cd st; rfl
  | cons q r ih =>
    intro cd st
    obtain ⟨cid, i⟩ := q
    cases hu : undoStep cid i cd st with
    | mk cd1 st1 =>
      have h1 : undoLoop ((cid, i) :: r) (cd, reopenStats st) = undoLoop r (cd1, reopenStats st1) := by
        show undoLoop r (undoStep cid i cd (reopenStats st)) = _
        rw [undoStep_stats_comm, hu]
      have h2 : undoLoop ((cid, i) :: r) (cd, st) = undoLoop r (cd1, st1) := by
        show undoLoop r (undoStep cid i cd st) = _
        rw [hu]
      rw [h1, h2]
      exact ih cd1 st1

theorem lookupKey_cons_self {k : String} {v : α} {l : List (String × α)} :
    lookupKey k ((k, v) :: l) = some v := by
  simp [lookupKey]

theorem upsert_cons_self {k : String} {v w : α} {l : List (String × α)} :
    upsert k v ((k, w) :: l) = (k, v) :: l := by
  simp [upsert]

theorem eraseKey_upsert_fresh {k : String} {v : α} {l : List (String × α)}
    (h : k ∉ keysOf l) : eraseKey k (upsert k v l) = l := by
  rw [upsert_eq_append h, eraseKey_append_self h]

theorem clientRecord_some_ne_empty {s : ClientStat} {cdta : Option CollData} :
    ((⟨some s, cdta⟩ : ClientRecord) = emptyClientRecord) = False := by
  simp only [eq_iff_iff, iff_false]
  intro h
  exact Option.noConfusion (congrArg ClientRecord.stat h)

theorem clientStat_someWp_ne_empty {cn cdy ld stv : Option String} {tp : Option Int}
    {wpv : Int} :
    ((⟨cn, cdy, ld, stv, tp, some wpv⟩ : ClientStat) = emptyClientStat) = False := by
  simp only [eq_iff_iff, iff_false]
  intro h
  exact Option.noConfusion (congrArg ClientStat.WeeksPaid h)

theorem active_ne_closed : ((some "Active" : Option String) = some "Closed") = False := by
  simp

theorem updated_ne_created : ((some "updated" : Option String) = some "created") = False := by
  simp

/-- The client shape the registrar maintains and the sweep/undo pair
round-trips: destructured stat with Active/Closed status, nonnegative
counters, dense weeks, and 600-installment entries in canonical status. -/
def NodeWF (node : ClientRecord) : Prop :=
  ∃ cn cdy ld stv tap wp coll,
    node = ⟨some ⟨cn, cdy, ld, some stv, some tap, some wp⟩, some coll⟩ ∧
    (stv = "Active" ∨ stv = "Closed") ∧
    0 ≤ tap ∧ 0 ≤ wp ∧ denseWeeks coll ∧
    ∀ q ∈ coll, q.2.Amount = some 600 ∧
      (q.2.entryStatus = some "paid" ∨ q.2.entryStatus = some "pending")

theorem sweepCreate_invert {t c : String} {cn cdy ld : Option String} {tap wp : Int}
    {coll : CollData} {n' : ClientRecord} {closed : Bool} {i : BatchInfo}
    {cd : ClientData} {st : AllStats}
    (htap : 0 ≤ tap) (hwp : 0 ≤ wp) (hdense : denseWeeks coll)
    (h : (Except.ok (sweepCreate t
        ⟨some ⟨cn, cdy, ld, some "Active", some tap, some wp⟩, some coll⟩
        ⟨cn, cdy, ld, some "Active", some tap, some wp⟩ coll) :
          Except String (ClientRecord × Bool × Option BatchInfo)) =
      Except.ok (n', closed, some i)) :
    undoStep c i ((c, n') :: cd) st =
      ((c, (⟨some ⟨cn, cdy, ld, some "Active", some tap, some wp⟩, some coll⟩ :
          ClientRecord)) :: cd,
        if closed = true then reopenStats st else st) := by
  by_cases hcap : pyMaxD0 (weekNumsOf coll) + 1 > 20
  · simp only [sweepCreate, if_pos hcap] at h
    have he := Except.ok.inj h
    rw [Prod.mk.injEq, Prod.mk.injEq] at he
    exact Option.noConfusion he.2.2
  · simp only [sweepCreate, if_neg hcap, Option.getD_some] at h
    have he := Except.ok.inj h
    rw [Prod.mk.injEq, Prod.mk.injEq] at he
    obtain ⟨hn', hcl, hi⟩ := he
    subst hn'
    subst hcl
    have hieq : i = ⟨some "created", some (pyMaxD0 (weekNumsOf coll) + 1)⟩ :=
      (Option.some_inj.mp hi).symm
    subst hieq
    rw [next_week_dense hdense, toString_next_week]
    have hkeyeq : "week" ++ toString (coll.length + 1) = weekKey (coll.length + 1) := rfl
    rw [hkeyeq]
    have hfresh : weekKey (coll.length + 1) ∉ keysOf coll := weekKey_succ_not_mem hdense
    have e1 : max 0 (wp + 1 - 1) = wp := by omega
    have e2 : max 0 (tap + 600 - 600) = tap := by omega
    by_cases hclo : wp + 1 ≥ 20
    · rw [if_pos hclo, decide_eq_true hclo, if_pos rfl]
      simp only [undoStep, lookupKey_cons_self, clientRecord_some_ne_empty, if_false,
        pyFormatOptInt, toString_next_week, hkeyeq, containsKey_upsert_self,
        Bool.true_eq_false, clientStat_someWp_ne_empty, lookupKey_upsert_self,
        Option.getD_some, eq_self_iff_true, if_true, eraseKey_upsert_fresh hfresh,
        upsert_cons_self, e1, e2]
    · rw [if_neg hclo, decide_eq_false hclo, if_neg Bool.false_ne_true]
      simp only [undoStep, lookupKey_cons_self, clientRecord_some_ne_empty, if_false,
        pyFormatOptInt, toString_next_week, hkeyeq, containsKey_upsert_self,
        Bool.true_eq_false, clientStat_someWp_ne_empty, lookupKey_upsert_self,
        Option.getD_some, active_ne_closed, eq_self_iff_true, if_true,
        eraseKey_upsert_fresh hfresh, upsert_cons_self, e1, e2]


theorem sweepUpdate_invert {c : String} {cn cdy ld ed : Option String} {tap wp : Int}
    {coll : CollData} {j : Nat}
    {n' : ClientRecord} {closed : Bool} {i : BatchInfo} {cd : ClientData} {st : AllStats}
    (htap : 0 ≤ tap) (hwp : 0 ≤ wp) (hdense : denseWeeks coll)
    (hlk : lookupKey (weekKey j) coll = some ⟨some 600, ed, some "pending"⟩)
    (h : sweepUpdate (weekKey j)
        ⟨some ⟨cn, cdy, ld, some "Active", some tap, some wp⟩, some coll⟩
        ⟨cn, cdy, ld, some "Active", some tap, some wp⟩ coll = .ok (n', closed, some i)) :
    undoStep c i ((c, n') :: cd) st =
      ((c, (⟨some ⟨cn, cdy, ld, some "Active", some tap, some wp⟩, some coll⟩ :
          ClientRecord)) :: cd,
        if closed = true then reopenStats st else st) := by
  have hnp : ¬ (pyLower "pending" = "paid") := by decide
  simp only [sweepUpdate, hlk, Option.getD_some, if_neg hnp, parse_weekKey] at h
  have he := Except.ok.inj h
  rw [Prod.mk.injEq, Prod.mk.injEq] at he
  obtain ⟨hn', hcl, hi⟩ := he
  subst hn'
  subst hcl
  have hieq : i = ⟨some "updated", some (j : Int)⟩ := (Option.some_inj.mp hi).symm
  subst hieq
  have hkeyeq : "week" ++ toString j = weekKey j := rfl
  have hts : toString ((j : Nat) : Int) = toString j := toString_int_ofNat j
  have hups : upsert (weekKey j) (⟨some 600, ed, some "pending"⟩ : Entry) coll = coll :=
    upsert_self hlk
  have e1 : max 0 (wp + 1 - 1) = wp := by omega
  have e2 : max 0 (tap + 600 - 600) = tap := by omega
  by_cases hclo : wp + 1 ≥ 20
  · rw [if_pos hclo, decide_eq_true hclo, if_pos rfl]
    simp only [undoStep, lookupKey_cons_self, clientRecord_some_ne_empty, if_false,
      pyFormatOptInt, hts, hkeyeq, containsKey_upsert_self,
      Bool.true_eq_false, clientStat_someWp_ne_empty, lookupKey_upsert_self,
      Option.getD_some, updated_ne_created, eq_self_iff_true, if_true,
      upsert_upsert, hups, upsert_cons_self, e1, e2]
  · rw [if_neg hclo, decide_eq_false hclo, if_neg Bool.false_ne_true]
    simp only [undoStep, lookupKey_cons_self, clientRecord_some_ne_empty, if_false,
      pyFormatOptInt, hts, hkeyeq, containsKey_upsert_self,
      Bool.true_eq_false, clientStat_someWp_ne_empty, lookupKey_upsert_self,
      Option.getD_some, updated_ne_created, active_ne_closed, eq_self_iff_true, if_true,
      upsert_upsert, hups, upsert_cons_self, e1, e2]


/-- A sweep step that left a receipt entry is inverted exactly by the
corresponding undo step, which also reverses the stats shift. -/
theorem sweepClient_invert {t w c : String} {node n' : ClientRecord} {closed : Bool}
    {i : BatchInfo} {cd : ClientData} {st : AllStats}
    (hwf : NodeWF node)
    (h : sweepClient t w node = .ok (n', closed, some i)) :
    undoStep c i ((c, n') :: cd) st =
      ((c, node) :: cd, if closed = true then reopenStats st else st) := by
  obtain ⟨cn, cdy, ld, stv, tap, wp, coll, hnode, hstv, htap, hwp, hdense, hent⟩ := hwf
  subst hnode
  have hse : (⟨cn, cdy, ld, some stv, some tap, some wp⟩ : ClientStat) ≠ emptyClientStat := by
    intro he
    exact Option.noConfusion (congrArg ClientStat.WeeksPaid he)
  rcases hstv with hA | hC
  · subst hA
    by_cases hday : cdy = some w
    · rw [sweepClient_proceed rfl hse rfl hday] at h
      have hg : ((⟨some ⟨cn, cdy, ld, some "Active", some tap, some wp⟩,
          some coll⟩ : ClientRecord).collectionData.getD []) = coll := rfl
      rw [hg] at h
      cases hf : find_today_entry coll t with
      | none =>
        rw [hf] at h
        simp only at h
        exact sweepCreate_invert htap hwp hdense h
      | some tk =>
        rw [hf] at h
        simp only at h
        by_cases htk : tk = ""
        · rw [if_pos htk] at h
          exact sweepCreate_invert htap hwp hdense h
        · rw [if_neg htk] at h
          have hmem := find_today_entry_mem hf
          obtain ⟨j, hj1, hj2, hjk⟩ := dense_key_shape hdense hmem
          subst hjk
          obtain ⟨e0, hlk0⟩ := lookupKey_of_mem_keys hmem
          obtain ⟨ea, ed, es⟩ := e0
          obtain ⟨ham, hes⟩ := hent (weekKey j, ⟨ea, ed, es⟩) (lookupKey_mem hlk0)
          have ham2 : ea = some 600 := ham
          subst ham2
          rcases hes with hpd | hpd
          · have hes2 : es = some "paid" := hpd
            subst hes2
            have hpp : pyLower "paid" = "paid" := by decide
            simp only [sweepUpdate, hlk0, Option.getD_some] at h
            rw [if_pos hpp] at h
            have he := Except.ok.inj h
            rw [Prod.mk.injEq, Prod.mk.injEq] at he
            exact Option.noConfusion he.2.2
          · have hes2 : es = some "pending" := hpd
            subst hes2
            exact sweepUpdate_invert htap hwp hdense hlk0 h
    · rw [sweepClient_skip_day rfl hse rfl hday] at h
      have he := Except.ok.inj h
      rw [Prod.mk.injEq, Prod.mk.injEq] at he
      exact Option.noConfusion he.2.2
  · subst hC
    rw [sweepClient_skip_closed rfl hse rfl] at h
    have he := Except.ok.inj h
    rw [Prod.mk.injEq, Prod.mk.injEq] at he
    exact Option.noConfusion he.2.2


/-- The undo loop applied to a successful sweep's receipt restores the swept
snapshot and stats exactly. -/
theorem sweep_undo_loop {t w : String} : ∀ (cd : ClientData) (st : AllStats)
    (cd' : ClientData) (st' : AllStats) (rec : Receipt),
    (keysOf cd).Nodup → (∀ p ∈ cd, NodeWF p.2) → StWF st →
    sweepLoop t w st cd = .ok (cd', st', rec) →
    undoLoop rec (cd', st') = (cd, st) := by
  intro cd
  induction cd with
  | nil =>
    intro st cd' st' rec hnd hwf hst h
    have he := Except.ok.inj h
    rw [Prod.mk.injEq, Prod.mk.injEq] at he
    obtain ⟨h1, h2, h3⟩ := he
    subst h1
    subst h2
    subst h3
    rfl
  | cons p rest ih =>
    intro st cd' st' rec hnd hwf hst h
    obtain ⟨cid, node⟩ := p
    unfold sweepLoop at h
    cases hcl : sweepClient t w node with
    | error e =>
      rw [hcl] at h
      exact Except.noConfusion h
    | ok trip =>
      obtain ⟨n1, closed, info?⟩ := trip
      rw [hcl] at h
      simp only at h
      cases hloop : sweepLoop t w (if closed then closeStats st else st) rest with
      | error e =>
        rw [hloop] at h
        exact Except.noConfusion h
      | ok r =>
        obtain ⟨rcd, rst, rrec⟩ := r
        rw [hloop] at h
        simp only at h
        have he := Except.ok.inj h
        rw [Prod.mk.injEq, Prod.mk.injEq] at he
        obtain ⟨h1, h2, h3⟩ := he
        subst h1
        subst h2
        subst h3
        have hnd0 := hnd
        rw [keysOf_cons] at hnd0
        have hcnotin : cid ∉ keysOf rest := (List.nodup_cons.mp hnd0).1
        have hnd1 : (keysOf rest).Nodup := (List.nodup_cons.mp hnd0).2
        have hwf1 : ∀ q ∈ rest, NodeWF q.2 := fun q hq => hwf q (List.mem_cons_of_mem _ hq)
        have hwfn : NodeWF node := hwf (cid, node) (List.mem_cons_self _ _)
        have hrk : ∀ q ∈ rrec, q.1 ≠ cid := by
          intro q hq hqc
          exact hcnotin (hqc ▸ sweepLoop_receipt_keys rest _ (rcd, rst, rrec) hloop q hq)
        cases info? with
        | none =>
          obtain ⟨hn1, hcf⟩ := sweepClient_none_info hcl
          subst hn1
          subst hcf
          rw [undoLoop_cons_ne rrec rcd rst hrk]
          rw [ih st rcd rst rrec hnd1 hwf1 hst hloop]
        | some i =>
          show undoLoop rrec (undoStep cid i ((cid, n1) :: rcd) rst) = _
          rw [sweepClient_invert hwfn hcl]
          cases closed with
          | false =>
            rw [if_neg Bool.false_ne_true]
            rw [undoLoop_cons_ne rrec rcd rst hrk]
            rw [ih st rcd rst rrec hnd1 hwf1 hst hloop]
          | true =>
            rw [if_pos rfl]
            have hihe := ih (closeStats st) rcd rst rrec hnd1 hwf1 stWF_close hloop
            rw [undoLoop_cons_ne rrec rcd (reopenStats rst) hrk]
            rw [undoLoop_stats_comm rrec rcd rst, hihe]
            rw [reopen_close hst]


/-- Claim C1: on a well-formed ledger not yet swept today, `undoLastBatch`
immediately after a successful `sweepToday` restores the document exactly:
`AllStats`, every `ClientStat`, every `collectionData` (created entries are
deleted, updated entries revert to `pending`), and the date's receipt is
removed. -/
theorem claim_C1_sweep_undo_roundtrip {t w : String} {d d' : Doc}
    {as : AllStats} {cd : ClientData} {bs : Batches}
    (hs : d.allStats = some as) (hsa : as.ActiveLoans.isSome)
    (hsc : as.ClosedLoans.isSome)
    (hc : d.clientData = some cd) (hnd : (keysOf cd).Nodup)
    (hwf : ∀ p ∈ cd, NodeWF p.2)
    (hb : d.batches = some bs) (hbk : ∀ k ∈ keysOf bs, k < t)
    (hl : d.lastBatch = true)
    (h : batch_mark_today t w (some d) = .ok d') :
    undo_last_batch (some d') = d := by
  obtain ⟨das, dcd, dbs, dlb⟩ := d
  have hs2 : das = some as := hs
  have hc2 : dcd = some cd := hc
  have hb2 : dbs = some bs := hb
  have hl2 : dlb = true := hl
  subst hs2
  subst hc2
  subst hb2
  subst hl2
  have hfreshT : t ∉ keysOf bs := fun hm => lt_irrefl t (hbk t hm)
  have hgate : ¬ containsKey t
      ((ensure_user_structure (some ⟨some as, some cd, some bs, true⟩)).batches.getD [])
        = true := by
    show ¬ containsKey t bs = true
    intro hct
    exact hfreshT (containsKey_iff.mp hct)
  unfold batch_mark_today at h
  rw [if_neg hgate] at h
  cases hloop : sweepLoop t w as cd with
  | error e =>
    have hloop2 : sweepLoop t w
        ((ensure_user_structure (some ⟨some as, some cd, some bs, true⟩)).allStats.getD
          emptyAllStats)
        ((ensure_user_structure (some ⟨some as, some cd, some bs, true⟩)).clientData.getD [])
        = .error e := hloop
    rw [hloop2] at h
    exact Except.noConfusion h
  | ok r =>
    obtain ⟨cd', st', rec⟩ := r
    have hloop2 : sweepLoop t w
        ((ensure_user_structure (some ⟨some as, some cd, some bs, true⟩)).allStats.getD
          emptyAllStats)
        ((ensure_user_structure (some ⟨some as, some cd, some bs, true⟩)).clientData.getD [])
        = .ok (cd', st', rec) := hloop
    rw [hloop2] at h
    simp only at h
    have hd' : d' = ⟨some st', some cd', some (upsert t rec bs), true⟩ :=
      (Except.ok.inj h).symm
    subst hd'
    have hup : upsert t rec bs = bs ++ [(t, rec)] := upsert_eq_append hfreshT
    have hne : ¬ ((ensure_user_structure (some (⟨some st', some cd',
        some (upsert t rec bs), true⟩ : Doc))).batches.getD [] = []) := by
      show ¬ upsert t rec bs = []
      intro h0
      rw [hup] at h0
      have hlen := congrArg List.length h0
      rw [List.length_append] at hlen
      simp at hlen
    unfold undo_last_batch
    rw [if_neg hne]
    have hlast : lastSorted (keysOf ((ensure_user_structure (some (⟨some st', some cd',
        some (upsert t rec bs), true⟩ : Doc))).batches.getD [])) = t := by
      show lastSorted (keysOf (upsert t rec bs)) = t
      rw [hup]
      have hkk : keysOf (bs ++ [(t, rec)]) = keysOf bs ++ [t] := by
        unfold keysOf
        rw [List.map_append]
        rfl
      rw [hkk]
      exact lastSorted_append_top hbk
    rw [hlast]
    dsimp only
    have hrec : lookupKey t ((ensure_user_structure (some (⟨some st', some cd',
        some (upsert t rec bs), true⟩ : Doc))).batches.getD []) = some rec :=
      lookupKey_upsert_self
    rw [hrec]
    simp only [Option.getD_some]
    have hroundtrip : undoLoop rec (cd', st') = (cd, as) :=
      sweep_undo_loop cd as cd' st' rec hnd hwf ⟨hsa, hsc⟩ hloop
    have hundo : undoLoop rec
        (((ensure_user_structure (some (⟨some st', some cd', some (upsert t rec bs),
            true⟩ : Doc))).clientData.getD []),
         ((ensure_user_structure (some (⟨some st', some cd', some (upsert t rec bs),
            true⟩ : Doc))).allStats.getD emptyAllStats)) = (cd, as) := hroundtrip
    rw [hundo]
    have hera : eraseKey t ((ensure_user_structure (some (⟨some st', some cd',
        some (upsert t rec bs), true⟩ : Doc))).batches.getD []) = bs :=
      eraseKey_upsert_fresh hfreshT
    rw [hera]
    rfl

def c1stat : ClientStat :=
  ⟨some "P1", some "MON", some "2024-01-01", some "Active", some 0, some 0⟩

/-- A one-client well-formed ledger with an older batch, not yet swept on
2024-01-08. -/
def c1doc : Doc :=
  ⟨some ⟨some 1, some 1, some 0⟩, some [("P1", ⟨some c1stat, some []⟩)],
   some [("2024-01-01", [])], true⟩

/-- `c1doc` after the Monday 2024-01-08 sweep creates `week1` for `P1`. -/
def c1swept : Doc :=
  ⟨some ⟨some 1, some 1, some 0⟩,
   some [("P1",
     ⟨some ⟨some "P1", some "MON", some "2024-01-01", some "Active", some 600, some 1⟩,
      some [("week1", ⟨some 600, some "2024-01-08", some "paid"⟩)]⟩)],
   some [("2024-01-01", []), ("2024-01-08", [("P1", ⟨some "created", some 1⟩)])],
   true⟩

/-- Witness for C1 at the one-client ledger `c1doc`. -/
theorem claim_C1_sweep_undo_roundtrip_witness :
    batch_mark_today "2024-01-08" "MON" (some c1doc) = .ok c1swept ∧
    undo_last_batch (some c1swept) = c1doc := by
  have hsw : batch_mark_today "2024-01-08" "MON" (some c1doc) = .ok c1swept := rfl
  refine ⟨hsw, ?_⟩
  refine claim_C1_sweep_undo_roundtrip rfl rfl rfl rfl (by decide) ?_ rfl ?_ rfl hsw
  · intro p hp
    have hpe : p = ("P1", (⟨some c1stat, some []⟩ : ClientRecord)) :=
      List.mem_singleton.mp hp
    rw [hpe]
    exact ⟨some "P1", some "MON", some "2024-01-01", "Active", 0, 0, [], rfl, Or.inl rfl,
      le_refl 0, le_refl 0, denseWeeks_nil, fun q hq => absurd hq (List.not_mem_nil q)⟩
  · intro k hk
    have hke : k = "2024-01-01" := List.mem_singleton.mp hk
    rw [hke, String.lt_iff_toList_lt]
    decide

end LendWid
